import Mathlib

set_option maxRecDepth 8000

/-!
Verification of the TropicSSL multi-precision integer (MPI) core.

The repository ships the public header `bignum.h` (and `sha4.h`); the MPI
implementation file itself is absent, so the arithmetic operations below are
modelled from the specification, as recorded in each definition's doc comment.
Limb width is the default 32 bits (`t_uint = uint32_t`).
-/

/-- Error kinds of the MPI module (spec section 7, the `TROPICSSL_ERR_MPI_XXX`
codes of `bignum.h`). Success is the `Except.ok` constructor. -/
inductive MpiErr where
  | ALLOC
  | BAD_INPUT
  | BUFFER_TOO_SMALL
  | NEGATIVE
  | DIV_BY_ZERO
  | NOT_ACCEPTABLE
deriving DecidableEq, Repr

/-- Sign of an integer in the MPI convention: `-1` for negatives, `+1`
otherwise (zero has sign `+1`). -/
def mpiSign (a : Int) : Int := if a < 0 then -1 else 1

/-- Modelled from the spec: `div(q, r, a, b)` (`mpi_div_mpi`, declared at
bignum.h:347; the implementation file is absent from the repository). The
magnitudes are divided and the signs are reattached, giving truncated
division: `a = q*b + r`, `0 <= |r| < |b|`, `sign(r) = sign(a)`.
Fails `DIV_BY_ZERO` when `b = 0`. -/
def mpi_div_mpi (a b : Int) : Except MpiErr (Int × Int) :=
  if b = 0 then .error .DIV_BY_ZERO
  else
    .ok (mpiSign a * mpiSign b * (a.natAbs / b.natAbs : Nat),
         mpiSign a * (a.natAbs % b.natAbs : Nat))

/-- Modelled from the spec: `mod(r, a, b)` (`mpi_mod_mpi`, declared at
bignum.h:368; the implementation file is absent). Runs `div` with the
quotient discarded, then adds `|b|` once when the remainder is negative.
Fails `DIV_BY_ZERO` when `b = 0` and `NEGATIVE` when `b < 0`. -/
def mpi_mod_mpi (a b : Int) : Except MpiErr Int :=
  if b < 0 then .error .NEGATIVE
  else
    match mpi_div_mpi a b with
    | .ok qr => .ok (if qr.2 < 0 then qr.2 + (b.natAbs : Int) else qr.2)
    | .error e => .error e

theorem mpiSign_eq_one_or (a : Int) : mpiSign a = 1 ∨ mpiSign a = -1 := by
  unfold mpiSign; split <;> simp

theorem mpiSign_mul_natAbs (a : Int) : mpiSign a * (a.natAbs : Int) = a := by
  unfold mpiSign; split <;> omega

theorem mpiSign_natAbs (a : Int) : (mpiSign a).natAbs = 1 := by
  unfold mpiSign; split <;> rfl

theorem mpi_div_mpi_okk {b : Int} (a : Int) (hb : b ≠ 0) :
    mpi_div_mpi a b =
      .ok (mpiSign a * mpiSign b * (a.natAbs / b.natAbs : Nat),
           mpiSign a * (a.natAbs % b.natAbs : Nat)) := by
  unfold mpi_div_mpi
  simp [hb]

theorem mpi_div_mpi_eq {a b q r : Int} (hb : b ≠ 0)
    (h : mpi_div_mpi a b = .ok (q, r)) :
    a = q * b + r ∧ r.natAbs < b.natAbs ∧ (r = 0 ∨ (0 < r ↔ 0 < a)) := by
  rw [mpi_div_mpi_okk a hb] at h
  injection h with h
  injection h with hq hr
  subst hq; subst hr
  have hmagn : (a.natAbs : Int) =
      ((a.natAbs / b.natAbs : Nat) : Int) * ((b.natAbs : Nat) : Int) +
        ((a.natAbs % b.natAbs : Nat) : Int) := by
    exact_mod_cast (Nat.div_add_mod' a.natAbs b.natAbs).symm
  have h1 : mpiSign b * b = (b.natAbs : Int) := by unfold mpiSign; split <;> omega
  refine ⟨?_, ?_, ?_⟩
  · calc a = mpiSign a * (a.natAbs : Int) := (mpiSign_mul_natAbs a).symm
    _ = mpiSign a * (((a.natAbs / b.natAbs : Nat) : Int) * (mpiSign b * b) +
          ((a.natAbs % b.natAbs : Nat) : Int)) := by rw [hmagn, ← h1]
    _ = mpiSign a * mpiSign b * ((a.natAbs / b.natAbs : Nat) : Int) * b +
          mpiSign a * ((a.natAbs % b.natAbs : Nat) : Int) := by ring
  · have h2 : (mpiSign a * ((a.natAbs % b.natAbs : Nat) : Int)).natAbs
        = a.natAbs % b.natAbs := by
      rw [Int.natAbs_mul, mpiSign_natAbs, one_mul, Int.natAbs_ofNat]
    rw [h2]
    exact Nat.mod_lt _ (Int.natAbs_pos.mpr hb)
  · rcases Nat.eq_zero_or_pos (a.natAbs % b.natAbs) with hz | hp
    · left; rw [hz]; simp
    · right
      have hle : a.natAbs % b.natAbs ≤ a.natAbs := Nat.mod_le _ _
      unfold mpiSign
      split <;> omega

theorem div_rep_unique {a b q r q' r' : Int} (_hb : b ≠ 0)
    (h : a = q * b + r) (hr : r.natAbs < b.natAbs) (hs : r = 0 ∨ (0 < r ↔ 0 < a))
    (h' : a = q' * b + r') (hr' : r'.natAbs < b.natAbs)
    (hs' : r' = 0 ∨ (0 < r' ↔ 0 < a)) :
    q' = q ∧ r' = r := by
  rcases eq_or_ne q' q with hq | hq
  · subst hq
    have : r' = r := by linarith [h, h']
    exact ⟨rfl, this⟩
  · exfalso
    have hd : r - r' = (q' - q) * b := by linear_combination h' - h
    have habs : b.natAbs ≤ (r - r').natAbs := by
      rw [hd, Int.natAbs_mul]
      have h1 : 1 ≤ (q' - q).natAbs := by omega
      calc b.natAbs = 1 * b.natAbs := (one_mul _).symm
        _ ≤ (q' - q).natAbs * b.natAbs := Nat.mul_le_mul_right _ h1
    omega

/-- C2: for every MPI `A` and every `B ≠ 0`, `div` succeeds and yields the
unique `q`, `r` with `A = q*B + r`, `0 ≤ |r| < |B|`, `sign(r) = sign(A)`;
for `B = 0` it fails with `DIV_BY_ZERO`; and concretely
`div(1000003, 1000) = (1000, 3)`. -/
theorem mpi_div_mpi_claim (a b : Int) :
    (b = 0 → mpi_div_mpi a b = .error .DIV_BY_ZERO) ∧
    (b ≠ 0 → ∃ q r, mpi_div_mpi a b = .ok (q, r) ∧
      a = q * b + r ∧ r.natAbs < b.natAbs ∧ (r = 0 ∨ (0 < r ↔ 0 < a)) ∧
      ∀ q' r', a = q' * b + r' → r'.natAbs < b.natAbs →
        (r' = 0 ∨ (0 < r' ↔ 0 < a)) → q' = q ∧ r' = r) ∧
    mpi_div_mpi 1000003 1000 = .ok (1000, 3) := by
  refine ⟨?_, ?_, ?_⟩
  · intro hb; unfold mpi_div_mpi; simp [hb]
  · intro hb
    refine ⟨_, _, mpi_div_mpi_okk a hb, ?_⟩
    obtain ⟨h1, h2, h3⟩ := mpi_div_mpi_eq hb (mpi_div_mpi_okk a hb)
    exact ⟨h1, h2, h3, fun q' r' h' hr' hs' => div_rep_unique hb h1 h2 h3 h' hr' hs'⟩
  · rfl

/-- Witness for C2 at `A = -7`, `B = 3`. -/
theorem mpi_div_mpi_claim_witness :
    ∃ q r, mpi_div_mpi (-7) 3 = .ok (q, r) ∧
      (-7 : Int) = q * 3 + r ∧ r.natAbs < (3 : Int).natAbs ∧
      (r = 0 ∨ (0 < r ↔ 0 < (-7 : Int))) ∧
      ∀ q' r', (-7 : Int) = q' * 3 + r' → r'.natAbs < (3 : Int).natAbs →
        (r' = 0 ∨ (0 < r' ↔ 0 < (-7 : Int))) → q' = q ∧ r' = r :=
  (mpi_div_mpi_claim (-7) 3).2.1 (by decide)

/-- C4 counterexample: as stated the claim fails on the model. For `B = -3`
`mod` fails with `NEGATIVE` instead of returning a residue, and for
`A = -7`, `B = 3` the truncating quotient of `div` combined with the
non-negative residue of `mod` gives `(-2)*3 + 2 = -4 ≠ -7`. -/
theorem mpi_divmod_identity_cex :
    mpi_mod_mpi 1 (-3) = .error .NEGATIVE ∧
    mpi_div_mpi (-7) 3 = .ok (-2, -1) ∧ mpi_mod_mpi (-7) 3 = .ok 2 ∧
    (-2 : Int) * 3 + 2 ≠ (-7 : Int) :=
  ⟨rfl, rfl, rfl, by decide⟩

/-- C4 amended: for `B > 0`, `div` and `mod` both succeed, `mod` returns the
Euclidean residue `0 ≤ r < B` congruent to `A`, `div` satisfies
`A = q*B + rt` with its own (sign-of-`A`) remainder, and the claimed combined
identity `A = q*B + r` holds whenever `A ≥ 0`; for `B < 0`, `mod` fails
with `NEGATIVE`. -/
theorem mpi_divmod_identity_amended (a b : Int) :
    (b < 0 → mpi_mod_mpi a b = .error .NEGATIVE) ∧
    (0 < b → ∃ q rt r, mpi_div_mpi a b = .ok (q, rt) ∧ mpi_mod_mpi a b = .ok r ∧
      0 ≤ r ∧ r < b ∧ a = q * b + rt ∧ b ∣ (a - r) ∧
      (0 ≤ a → r = rt ∧ a = q * b + r)) := by
  constructor
  · intro hb; unfold mpi_mod_mpi; simp [hb]
  · intro hb
    have hb0 : b ≠ 0 := by omega
    obtain ⟨h1, h2, h3⟩ := mpi_div_mpi_eq hb0 (mpi_div_mpi_okk a hb0)
    set q := mpiSign a * mpiSign b * (a.natAbs / b.natAbs : Nat) with hqdef
    set rt := mpiSign a * (a.natAbs % b.natAbs : Nat) with hrtdef
    have hmod : mpi_mod_mpi a b =
        .ok (if rt < 0 then rt + (b.natAbs : Int) else rt) := by
      unfold mpi_mod_mpi
      rw [if_neg (by omega), mpi_div_mpi_okk a hb0]
    have hbabs : (b.natAbs : Int) = b := by omega
    refine ⟨q, rt, _, mpi_div_mpi_okk a hb0, hmod, ?_, ?_, h1, ?_, ?_⟩
    · split <;> omega
    · split <;> omega
    · split
      · exact ⟨q - 1, by push_cast [hbabs]; linarith⟩
      · exact ⟨q, by linarith⟩
    · intro ha
      have hrtnn : 0 ≤ rt := by
        rcases h3 with h0 | hiff
        · omega
        · by_contra hneg
          have ha0 : a = 0 := by omega
          have hdvd : b ∣ rt := ⟨-q, by linarith [h1, ha0]⟩
          have := Int.eq_zero_of_dvd_of_natAbs_lt_natAbs hdvd h2
          omega
      rw [if_neg (by omega : ¬ rt < 0)]
      exact ⟨rfl, h1⟩

/-- Witness for the amended C4 at `A = -7`, `B = 3`. -/
theorem mpi_divmod_identity_amended_witness :
    ∃ q rt r, mpi_div_mpi (-7) 3 = .ok (q, rt) ∧ mpi_mod_mpi (-7) 3 = .ok r ∧
      0 ≤ r ∧ r < 3 ∧ (-7 : Int) = q * 3 + rt ∧ (3 : Int) ∣ (-7 - r) ∧
      (0 ≤ (-7 : Int) → r = rt ∧ (-7 : Int) = q * 3 + r) :=
  (mpi_divmod_identity_amended (-7) 3).2 (by decide)

/-- Bit length (`msb`, bignum.h:144): number of most-significant bits, with
fuel for structural recursion (fuel `>= m` suffices). -/
def msbAux : Nat → Nat → Nat
  | 0, _ => 0
  | f + 1, m => if m = 0 then 0 else msbAux f (m / 2) + 1

/-- `mpi_msb(x)`: 1 + index of the highest set bit, 0 for x = 0. -/
def mpi_msb (x : Nat) : Nat := msbAux x x

/-- `mpi_size(x)`: total size in bytes, `ceil(msb(x)/8)` (bignum.h:149). -/
def mpi_size (x : Nat) : Nat := (mpi_msb x + 7) / 8

/-- Big-endian byte string of `x`, zero-padded on the left to `len` bytes. -/
def beBytes : Nat → Nat → List Nat
  | 0, _ => []
  | len + 1, x => (x / 256 ^ len % 256) :: beBytes len x

/-- Modelled from the spec: `write_binary(x, buf, buflen)` (`mpi_write_binary`,
declared at bignum.h:229; the implementation file is absent). Emits the
magnitude big-endian, zero-padded on the left to `buflen` bytes; fails
`BUFFER_TOO_SMALL` when `buflen < size_bytes(x)`. Note the declared C
signature takes `buflen` by value, so the function has no channel through
which the caller-required size could be reported back. -/
def mpi_write_binary (x : Nat) (buflen : Nat) : Except MpiErr (List Nat) :=
  if buflen < mpi_size x then .error .BUFFER_TOO_SMALL
  else .ok (beBytes buflen x)

theorem msbAux_lt {f m : Nat} (h : m ≤ f) : m < 2 ^ msbAux f m := by
  induction f generalizing m with
  | zero =>
    have : m = 0 := Nat.le_zero.mp h
    subst this; simp [msbAux]
  | succ f ih =>
    unfold msbAux
    split
    · omega
    · have hm : 0 < m := by omega
      have hrec := ih (m := m / 2) (by omega)
      have : m ≤ 2 * (m / 2) + 1 := by omega
      calc m ≤ 2 * (m / 2) + 1 := this
        _ < 2 * 2 ^ msbAux f (m / 2) := by omega
        _ = 2 ^ (msbAux f (m / 2) + 1) := by rw [Nat.pow_succ]; ring

theorem mpi_msb_lt (x : Nat) : x < 2 ^ mpi_msb x := msbAux_lt (Nat.le_refl x)

theorem lt_pow_size {x buflen : Nat} (h : mpi_size x ≤ buflen) : x < 256 ^ buflen := by
  have h1 : x < 2 ^ mpi_msb x := mpi_msb_lt x
  have h2 : mpi_msb x ≤ 8 * buflen := by
    unfold mpi_size at h; omega
  calc x < 2 ^ mpi_msb x := h1
    _ ≤ 2 ^ (8 * buflen) := Nat.pow_le_pow_right (by omega) h2
    _ = 256 ^ buflen := by rw [Nat.pow_mul]

theorem beBytes_length (len x : Nat) : (beBytes len x).length = len := by
  induction len generalizing x with
  | zero => rfl
  | succ n ih => simp [beBytes, ih]

theorem beBytes_lt (len x : Nat) : ∀ b ∈ beBytes len x, b < 256 := by
  induction len generalizing x with
  | zero => intro b hb; simp [beBytes] at hb
  | succ n ih =>
    intro b hb
    simp only [beBytes, List.mem_cons] at hb
    rcases hb with hb | hb
    · subst hb; exact Nat.mod_lt _ (by omega)
    · exact ih x b hb

theorem beBytes_foldl (len x a : Nat) :
    (beBytes len x).foldl (fun acc b => 256 * acc + b) a = a * 256 ^ len + x % 256 ^ len := by
  induction len generalizing a with
  | zero => simp [beBytes, Nat.mod_one]
  | succ n ih =>
    have key : x / 256 ^ n % 256 * 256 ^ n + x % 256 ^ n = x % 256 ^ (n + 1) := by
      have h1 : x % 256 ^ (n + 1) = x % (256 ^ n * 256) := by rw [Nat.pow_succ]
      rw [h1, Nat.mod_mul]
      ring
    simp only [beBytes, List.foldl_cons]
    rw [ih, ← key]
    ring

/-- C5 evidence: `write_binary` fails with `BUFFER_TOO_SMALL` exactly when the
buffer is shorter than `size_bytes(x)` and otherwise emits `buflen` big-endian
bytes of the magnitude; at the claimed failing input (a 300-bit `X`,
`buflen = 0`) it fails and the required size is 38 bytes — but the C
signature (bignum.h:229) takes `buflen` by value, so no required size can be
reported back to the caller, contradicting the header note (bignum.h:226-228)
and the claim. -/
theorem mpi_write_binary_spec (x buflen : Nat) :
    (buflen < mpi_size x → mpi_write_binary x buflen = .error .BUFFER_TOO_SMALL) ∧
    (mpi_size x ≤ buflen → ∃ bs, mpi_write_binary x buflen = .ok bs ∧
      bs.length = buflen ∧ (∀ b ∈ bs, b < 256) ∧
      bs.foldl (fun acc b => 256 * acc + b) 0 = x) ∧
    (mpi_write_binary (2 ^ 299) 0 = .error .BUFFER_TOO_SMALL ∧
      mpi_size (2 ^ 299) = 38) := by
  refine ⟨?_, ?_, ?_, (rfl : mpi_size (2 ^ 299) = 38)⟩
  · intro h; unfold mpi_write_binary; simp [h]
  · intro h
    refine ⟨beBytes buflen x, ?_, beBytes_length buflen x, beBytes_lt buflen x, ?_⟩
    · unfold mpi_write_binary; rw [if_neg (by omega)]
    · rw [beBytes_foldl]
      have := lt_pow_size h
      simp [Nat.mod_eq_of_lt this]
  · rfl

/-- Witness for C5 at `x = 258`, `buflen = 3` (and the failing 300-bit input). -/
theorem mpi_write_binary_spec_witness :
    (mpi_size 258 ≤ 3 ∧ ∃ bs, mpi_write_binary 258 3 = .ok bs ∧
      bs.length = 3 ∧ (∀ b ∈ bs, b < 256) ∧
      bs.foldl (fun acc b => 256 * acc + b) 0 = 258) ∧
    (mpi_write_binary (2 ^ 299) 0 = .error .BUFFER_TOO_SMALL ∧
      mpi_size (2 ^ 299) = 38) :=
  ⟨⟨by decide, (mpi_write_binary_spec 258 3).2.1 (by decide)⟩,
    (mpi_write_binary_spec 258 3).2.2⟩

/-- No divisor `d` with `2 <= d <= bound` divides `n`. -/
def noSmallDivisor : Nat → Nat → Bool
  | 0, _ => true
  | d + 1, n => (decide (d + 1 < 2) || decide (¬ n % (d + 1) = 0)) && noSmallDivisor d n

/-- Trial-division primality probe used to build the small-prime table:
`n` is at least 2 and no `m` with `2 <= m < n` divides it. -/
def isSmallPrimeB (n : Nat) : Bool :=
  decide (2 ≤ n) && noSmallDivisor (n - 1) n

theorem noSmallDivisor_sound {k n : Nat} (h : noSmallDivisor k n = true) :
    ∀ d, 2 ≤ d → d ≤ k → ¬ d ∣ n := by
  induction k with
  | zero => omega
  | succ j ih =>
    unfold noSmallDivisor at h
    rw [Bool.and_eq_true, Bool.or_eq_true, decide_eq_true_iff, decide_eq_true_iff] at h
    intro d h2 hdk
    rcases Nat.lt_or_ge d (j + 1) with hd | hd
    · exact ih h.2 d h2 (by omega)
    · have hdj : d = j + 1 := by omega
      subst hdj
      rcases h.1 with hlt | hmod
      · omega
      · intro hdvd
        exact hmod (Nat.mod_eq_zero_of_dvd hdvd)

/-- Modelled from the spec: the fixed table of small primes used by the
trial-division filter of `is_prime` — the first 1000 primes (those up to
7919) with 2 omitted, since 2 is handled by the parity special case before
the table is consulted. -/
def small_prime : List Nat :=
  (List.range 7920).filter (fun n => isSmallPrimeB n && decide (2 < n))

theorem prime_of_isSmallPrimeB {n : Nat} (h : isSmallPrimeB n = true) :
    Nat.Prime n := by
  unfold isSmallPrimeB at h
  rw [Bool.and_eq_true, decide_eq_true_iff] at h
  obtain ⟨h2, hdvd⟩ := h
  rw [Nat.prime_def_lt']
  exact ⟨h2, fun m hm hms => noSmallDivisor_sound hdvd m hm (by omega)⟩

theorem small_prime_mem {q : Nat} (h : q ∈ small_prime) :
    Nat.Prime q ∧ 2 < q := by
  unfold small_prime at h
  rw [List.mem_filter, Bool.and_eq_true, decide_eq_true_iff] at h
  exact ⟨prime_of_isSmallPrimeB h.2.1, h.2.2⟩

/-- Modelled from the spec: the small-prime trial-division filter of
`is_prime`. Walking the ascending table: a candidate not larger than the
table entry has no smaller prime factor left to test and is accepted (this
early acceptance is what makes every prime in the table itself pass, as the
spec requires); a candidate divisible by a table entry is rejected as
composite; otherwise the scan continues, and `none` means the filter is
inconclusive and Miller-Rabin must decide. -/
def checkSmallFactors (x : Nat) : List Nat → Option (Except MpiErr Unit)
  | [] => none
  | p :: ps =>
    if x ≤ p then some (.ok ())
    else if x % p = 0 then some (.error .NOT_ACCEPTABLE)
    else checkSmallFactors x ps

/-- Modelled from the spec: the deterministic front end of Miller-Rabin
`is_prime` (bignum.h:431): reject `x < 2`, special-case 2 as prime, reject
even numbers, then run the small-prime trial division. `none` means the
probabilistic rounds must run. -/
def mpi_is_prime_small (x : Nat) : Option (Except MpiErr Unit) :=
  if x < 2 then some (.error .NOT_ACCEPTABLE)
  else if x = 2 then some (.ok ())
  else if x % 2 = 0 then some (.error .NOT_ACCEPTABLE)
  else checkSmallFactors x small_prime

/-- Decompose `m = 2^s * d` with `d` odd (fuel-driven; fuel `>= m` suffices). -/
def oddSplit : Nat → Nat → Nat × Nat
  | 0, m => (0, m)
  | f + 1, m =>
    if m % 2 = 1 ∨ m = 0 then (0, m)
    else
      let p := oddSplit f (m / 2)
      (p.1 + 1, p.2)

/-- Modelled from the spec: the squaring chain of one Miller-Rabin round —
square `y` up to `count` times looking for `x - 1`. -/
def mrSquares : Nat → Nat → Nat → Bool
  | 0, _, _ => false
  | c + 1, x, y =>
    let y2 := y * y % x
    if y2 = x - 1 then true else mrSquares c x y2

/-- Modelled from the spec: one Miller-Rabin round with witness `a` for an odd
candidate `x`, where `x - 1 = 2^s * d` with `d` odd: compute `y = a^d mod x`;
pass when `y` is `1` or `x-1`, otherwise square up to `s - 1` times checking
for `x - 1`. -/
def mrRound (x d s a : Nat) : Bool :=
  let y := a ^ d % x
  if y = 1 ∨ y = x - 1 then true else mrSquares (s - 1) x y

/-- Modelled from the spec: the probabilistic part of `is_prime`. The spec's
draw-and-retry of a random witness in `[2, x-2]` is abstracted into reducing
the RNG stream value into that range; 40 rounds are run (the spec's example
count for the target error bound). -/
def millerRabin (x : Nat) (rng : Nat → Nat) : Except MpiErr Unit :=
  let p := oddSplit (x - 1) (x - 1)
  if (List.range 40).all (fun i => mrRound x p.2 p.1 (2 + rng i % (x - 3))) then
    .ok ()
  else
    .error .NOT_ACCEPTABLE

/-- Modelled from the spec: Miller-Rabin `is_prime(x, rng)` (`mpi_is_prime`,
declared at bignum.h:431; the implementation file is absent): the
deterministic small checks, then the probabilistic rounds. -/
def mpi_is_prime (x : Nat) (rng : Nat → Nat) : Except MpiErr Unit :=
  match mpi_is_prime_small x with
  | some r => r
  | none => millerRabin x rng

theorem checkSmallFactors_of_prime {l : List Nat}
    (hl : ∀ q ∈ l, Nat.Prime q) {p : Nat} (hp : Nat.Prime p) (hmem : p ∈ l) :
    checkSmallFactors p l = some (.ok ()) := by
  induction l with
  | nil => cases hmem
  | cons q ps ih =>
    unfold checkSmallFactors
    by_cases hle : p ≤ q
    · simp [hle]
    · rw [if_neg hle]
      have hq : Nat.Prime q := hl q (List.mem_cons_self ..)
      have hne : p ≠ q := by omega
      have hmem2 : p ∈ ps := by
        rcases List.mem_cons.mp hmem with h | h
        · exact absurd h hne
        · exact h
      have hnd : ¬ p % q = 0 := by
        intro h0
        rcases Nat.Prime.eq_one_or_self_of_dvd hp q (Nat.dvd_of_mod_eq_zero h0)
          with h | h
        · exact absurd h (Nat.Prime.ne_one hq)
        · omega
      rw [if_neg hnd]
      exact ih (fun r hr => hl r (List.mem_cons_of_mem _ hr)) hmem2

/-- C6: `is_prime` rejects every input that is less than 2 or even (other
than 2, which is special-cased as prime), and accepts every prime in the
small-prime table. -/
theorem mpi_is_prime_claim (x : Nat) (rng : Nat → Nat) :
    (x < 2 → mpi_is_prime x rng = .error .NOT_ACCEPTABLE) ∧
    (x % 2 = 0 → x ≠ 2 → mpi_is_prime x rng = .error .NOT_ACCEPTABLE) ∧
    mpi_is_prime 2 rng = .ok () ∧
    (∀ p ∈ small_prime, mpi_is_prime p rng = .ok ()) := by
  refine ⟨?_, ?_, ?_, ?_⟩
  · intro h
    unfold mpi_is_prime mpi_is_prime_small
    simp [h]
  · intro he h2
    unfold mpi_is_prime mpi_is_prime_small
    rcases Nat.lt_or_ge x 2 with h | h
    · interval_cases x
      · simp
      · simp at he
    · rw [if_neg (by omega), if_neg h2, if_pos he]
  · rfl
  · intro p hp
    obtain ⟨hprime, hgt⟩ := small_prime_mem hp
    have hodd : p % 2 = 1 :=
      Nat.odd_iff.mp (Nat.Prime.odd_of_ne_two hprime (by omega))
    unfold mpi_is_prime mpi_is_prime_small
    rw [if_neg (by omega : ¬ p < 2), if_neg (by omega : ¬ p = 2),
      if_neg (by omega : ¬ p % 2 = 0),
      checkSmallFactors_of_prime (fun q hq => (small_prime_mem hq).1) hprime hp]

/-- Witness for C6 at `x = 0`, `x = 2` and the table prime `p = 3`. -/
theorem mpi_is_prime_claim_witness :
    mpi_is_prime 0 (fun _ => 0) = .error .NOT_ACCEPTABLE ∧
    mpi_is_prime 2 (fun _ => 0) = .ok () ∧
    mpi_is_prime 3 (fun _ => 0) = .ok () :=
  ⟨(mpi_is_prime_claim 0 (fun _ => 0)).1 (by decide),
    (mpi_is_prime_claim 2 (fun _ => 0)).2.2.1,
    (mpi_is_prime_claim 3 (fun _ => 0)).2.2.2 3
      (List.mem_filter.mpr ⟨List.mem_range.mpr (by decide), by decide⟩)⟩

/-- The limb radix: limbs are 32-bit words (`t_uint = uint32_t`). -/
def limbRadix : Nat := 4294967296

/-- `TROPICSSL_MPI_MAX_LIMBS` (bignum.h:52): hard ceiling on limb counts. -/
def MPI_MAX_LIMBS : Nat := 10000

/-- The MPI structure (bignum.h:87-91): sign `s` and the limb buffer `p`,
least-significant limb first; the list length plays the role of the
capacity field `n`. -/
structure mpi where
  s : Int
  p : List Nat

/-- Numeric value of a limb buffer, little-endian base `2^32`. -/
def limbsVal : List Nat → Nat
  | [] => 0
  | d :: l => d + limbRadix * limbsVal l

/-- Numeric value of an MPI: sign times magnitude. -/
def mpiVal (X : mpi) : Int := X.s * limbsVal X.p

/-- Minimal limb buffer of a natural number (fuel-driven; fuel `>= m`
suffices). -/
def natToLimbsAux : Nat → Nat → List Nat
  | 0, _ => []
  | f + 1, m => if m = 0 then [] else m % limbRadix :: natToLimbsAux f (m / limbRadix)

/-- Minimal limb buffer of a natural number. -/
def natToLimbs (m : Nat) : List Nat := natToLimbsAux m m

/-- Significant-limb count: limbs above the last nonzero limb do not count. -/
def sigLimbs (l : List Nat) : Nat :=
  (l.reverse.dropWhile (fun d => decide (d = 0))).length

/-- The representation invariants of spec section 3: a strict `±1` sign,
sign `+1` for the value zero, and an all-zero tail above the significant
limbs. -/
def Good (X : mpi) : Prop :=
  (X.s = 1 ∨ X.s = -1) ∧ (mpiVal X = 0 → X.s = 1) ∧
  ∀ i, sigLimbs X.p ≤ i → X.p.getD i 0 = 0

/-- Build a result MPI from a dispatch sign and a result magnitude: the sign
of a zero result is normalized to `+1` (spec sections 3 and 9), and growth
past `MAX_LIMBS` fails with `ALLOC`. -/
def mkMpi (s : Int) (m : Nat) : Except MpiErr mpi :=
  if MPI_MAX_LIMBS < (natToLimbs m).length then .error .ALLOC
  else if m = 0 then .ok ⟨1, []⟩
  else .ok ⟨s, natToLimbs m⟩

/-- Modelled from the spec: signed addition `add(x, a, b)` (`mpi_add_mpi`,
declared at bignum.h:296; the implementation file is absent): equal signs
add magnitudes and keep the sign, unequal signs subtract the smaller
magnitude from the larger and take the larger side's sign; a zero result
is normalized to sign `+1`. -/
def mpi_add_mpi (A B : mpi) : Except MpiErr mpi :=
  if A.s = B.s then mkMpi A.s (limbsVal A.p + limbsVal B.p)
  else if limbsVal B.p ≤ limbsVal A.p then mkMpi A.s (limbsVal A.p - limbsVal B.p)
  else mkMpi B.s (limbsVal B.p - limbsVal A.p)

/-- Modelled from the spec: signed subtraction `sub(x, a, b)`
(`mpi_sub_mpi`, bignum.h:304): addition against `b` with its sign
flipped. -/
def mpi_sub_mpi (A B : mpi) : Except MpiErr mpi :=
  mpi_add_mpi A ⟨-B.s, B.p⟩

/-- Modelled from the spec: multiplication `mul(x, a, b)` (`mpi_mul_mpi`,
bignum.h:328): product of the magnitudes with the product sign, zero
normalized to `+1`. -/
def mpi_mul_mpi (A B : mpi) : Except MpiErr mpi :=
  mkMpi (A.s * B.s) (limbsVal A.p * limbsVal B.p)

/-- Modelled from the spec: `set_int` / `lset(x, z)` (`mpi_lset`,
bignum.h:134). -/
def mpi_lset (z : Int) : mpi :=
  ⟨mpiSign z, natToLimbs z.natAbs⟩

/-- Modelled from the spec: `read_binary` (`mpi_read_binary`, bignum.h:214):
reads a big-endian byte string as a non-negative value. -/
def mpi_read_binary (bytes : List Nat) : Except MpiErr mpi :=
  mkMpi 1 (bytes.foldl (fun acc b => 256 * acc + b) 0)

/-- Modelled from the spec: `grow(x, n)` (`mpi_grow`, declared at
bignum.h:113; the implementation file is absent): ensure a capacity of at
least `n` limbs, zeroing the newly acquired limbs; fail with `ALLOC` when
`n` exceeds `MAX_LIMBS`. -/
def mpi_grow (X : mpi) (n : Nat) : Except MpiErr mpi :=
  if MPI_MAX_LIMBS < n then .error .ALLOC
  else if X.p.length < n then .ok ⟨X.s, X.p ++ List.replicate (n - X.p.length) 0⟩
  else .ok X

theorem limbsVal_natToLimbsAux {f m : Nat} (h : m ≤ f) :
    limbsVal (natToLimbsAux f m) = m := by
  induction f generalizing m with
  | zero => interval_cases m; rfl
  | succ f ih =>
    unfold natToLimbsAux
    split
    · simp [limbsVal]; omega
    · have hm : 0 < m := by omega
      have hlt : m / limbRadix < m := Nat.div_lt_self hm (by norm_num [limbRadix])
      rw [limbsVal, ih (by omega)]
      have := Nat.div_add_mod m limbRadix
      omega

theorem limbsVal_natToLimbs (m : Nat) : limbsVal (natToLimbs m) = m :=
  limbsVal_natToLimbsAux (Nat.le_refl m)

theorem sigLimbs_getD {l : List Nat} {i : Nat} (h : sigLimbs l ≤ i) :
    l.getD i 0 = 0 := by
  have hsplit : l = (l.reverse.dropWhile (fun d => decide (d = 0))).reverse ++
      (l.reverse.takeWhile (fun d => decide (d = 0))).reverse := by
    conv_lhs => rw [← List.reverse_reverse l,
      ← List.takeWhile_append_dropWhile (p := fun d => decide (d = 0)) (l := l.reverse)]
    rw [List.reverse_append]
  have hzero : ∀ d ∈ (l.reverse.takeWhile (fun d => decide (d = 0))).reverse, d = 0 := by
    intro d hd
    rw [List.mem_reverse] at hd
    have := List.mem_takeWhile_imp hd
    simpa using this
  rw [hsplit, List.getD_append_right _ _ _ _ (by simpa using h)]
  simp only [List.length_reverse]
  rcases Nat.lt_or_ge (i - (List.dropWhile (fun d => decide (d = 0)) l.reverse).length)
      (List.takeWhile (fun d => decide (d = 0)) l.reverse).reverse.length with hlt | hge
  · rw [List.getD_eq_getElem _ _ hlt]
    exact hzero _ (List.getElem_mem hlt)
  · exact List.getD_eq_default _ _ hge

theorem mkMpi_ok {s : Int} {m : Nat} {X : mpi} (h : mkMpi s m = .ok X) :
    (X.s = s ∨ X.s = 1) ∧ mpiVal X = X.s * m ∧ limbsVal X.p = m ∧
    X.p = natToLimbs m := by
  unfold mkMpi at h
  rcases Nat.lt_or_ge MPI_MAX_LIMBS (natToLimbs m).length with hbig | hsm
  · rw [if_pos hbig] at h; cases h
  · rw [if_neg (by omega)] at h
    by_cases hm : m = 0
    · rw [if_pos hm] at h
      injection h with h
      subst h; subst hm
      refine ⟨Or.inr rfl, rfl, rfl, rfl⟩
    · rw [if_neg hm] at h
      injection h with h
      subst h
      refine ⟨Or.inl rfl, ?_, ?_, rfl⟩
      · unfold mpiVal; rw [limbsVal_natToLimbs]
      · exact limbsVal_natToLimbs m

theorem mkMpi_good {s : Int} (hs : s = 1 ∨ s = -1) {m : Nat} {X : mpi}
    (h : mkMpi s m = .ok X) : Good X := by
  unfold mkMpi at h
  rcases Nat.lt_or_ge MPI_MAX_LIMBS (natToLimbs m).length with hbig | hsm
  · rw [if_pos hbig] at h; cases h
  · rw [if_neg (by omega)] at h
    by_cases hm : m = 0
    · rw [if_pos hm] at h
      injection h with h
      subst h
      exact ⟨Or.inl rfl, fun _ => rfl, fun i _ => by simp⟩
    · rw [if_neg hm] at h
      injection h with h
      subst h
      refine ⟨hs, ?_, fun i hi => sigLimbs_getD hi⟩
      intro h0
      exfalso
      unfold mpiVal at h0
      rw [limbsVal_natToLimbs] at h0
      rcases hs with h1 | h1 <;> rw [h1] at h0 <;> simp at h0 <;> omega

theorem mpi_add_mpi_good {A B X : mpi} (hA : A.s = 1 ∨ A.s = -1)
    (hB : B.s = 1 ∨ B.s = -1) (h : mpi_add_mpi A B = .ok X) : Good X := by
  unfold mpi_add_mpi at h
  split at h
  · exact mkMpi_good hA h
  · split at h
    · exact mkMpi_good hA h
    · exact mkMpi_good hB h

theorem limbsVal_replicate_zero (k : Nat) : limbsVal (List.replicate k 0) = 0 := by
  induction k with
  | zero => rfl
  | succ j ih => simp [List.replicate_succ, limbsVal, ih]

theorem limbsVal_append_zeros (l : List Nat) (k : Nat) :
    limbsVal (l ++ List.replicate k 0) = limbsVal l := by
  induction l with
  | nil => simpa [limbsVal] using limbsVal_replicate_zero k
  | cons d t ih => simp [limbsVal, ih]

theorem replicate_getD (k j : Nat) : (List.replicate k 0).getD j 0 = 0 := by
  rcases Nat.lt_or_ge j k with h | h
  · rw [List.getD_eq_getElem _ _ (by simpa using h)]
    exact List.getElem_replicate _ _
  · exact List.getD_eq_default _ _ (by simpa using h)

/-- C7: after every (modelled) public operation that succeeds, the produced
MPI satisfies the representation invariants: sign strictly `±1`, sign `+1`
when the value is zero, and all limbs at or above the significant-limb
count equal to zero. -/
theorem mpi_invariants_claim :
    (∀ A B X, Good A → Good B → mpi_add_mpi A B = .ok X → Good X) ∧
    (∀ A B X, Good A → Good B → mpi_sub_mpi A B = .ok X → Good X) ∧
    (∀ A B X, Good A → Good B → mpi_mul_mpi A B = .ok X → Good X) ∧
    (∀ X n Y, Good X → mpi_grow X n = .ok Y → Good Y) ∧
    (∀ z, Good (mpi_lset z)) ∧
    (∀ bs X, mpi_read_binary bs = .ok X → Good X) := by
  refine ⟨?_, ?_, ?_, ?_, ?_, ?_⟩
  · exact fun A B X hA hB h => mpi_add_mpi_good hA.1 hB.1 h
  · intro A B X hA hB h
    unfold mpi_sub_mpi at h
    exact mpi_add_mpi_good hA.1 (by have := hB.1; simp only []; omega) h
  · intro A B X hA hB h
    unfold mpi_mul_mpi at h
    refine mkMpi_good ?_ h
    rcases hA.1 with h1 | h1 <;> rcases hB.1 with h2 | h2 <;>
      rw [h1, h2] <;> norm_num
  · intro X n Y hX h
    unfold mpi_grow at h
    split at h
    · cases h
    · split at h
      · injection h with h
        subst h
        refine ⟨hX.1, ?_, fun i hi => sigLimbs_getD hi⟩
        intro h0
        apply hX.2.1
        unfold mpiVal at h0 ⊢
        rwa [limbsVal_append_zeros] at h0
      · injection h with h
        subst h
        exact hX
  · intro z
    refine ⟨mpiSign_eq_one_or z, ?_, fun i hi => sigLimbs_getD hi⟩
    intro h0
    unfold mpiVal mpi_lset at h0
    rw [limbsVal_natToLimbs] at h0
    have hz : z = 0 := by
      have := mpiSign_mul_natAbs z
      simp only [mpi_lset] at h0
      omega
    subst hz
    rfl
  · intro bs X h
    exact mkMpi_good (Or.inl rfl) h

/-- Witness for C7: `add((1,[5]), (-1,[3])) = (1,[2])` is well-formed, and so
is `lset(-4)`. -/
theorem mpi_invariants_claim_witness :
    Good ⟨1, [2]⟩ ∧ Good (mpi_lset (-4)) :=
  ⟨mpi_invariants_claim.1 ⟨1, [5]⟩ ⟨-1, [3]⟩ ⟨1, [2]⟩
      ⟨Or.inl rfl, fun _ => rfl, fun _ hi => sigLimbs_getD hi⟩
      ⟨Or.inr rfl, fun h => absurd h (by decide), fun _ hi => sigLimbs_getD hi⟩
      rfl,
    mpi_invariants_claim.2.2.2.2.1 (-4)⟩

theorem mkMpi_alloc {s : Int} {m : Nat}
    (h : MPI_MAX_LIMBS < (natToLimbs m).length) :
    mkMpi s m = .error .ALLOC := by
  unfold mkMpi
  rw [if_pos h]

/-- C8: `grow(x, n)` succeeds for `n ≤ MAX_LIMBS` (10000), ensuring a
capacity of at least `n` limbs while preserving the value, the sign and the
existing limbs and zeroing all newly acquired limbs; it fails with `ALLOC`
for `n > MAX_LIMBS`; and the modelled operations whose result would need
more than `MAX_LIMBS` limbs fail with `ALLOC`. -/
theorem mpi_grow_claim :
    (∀ X n, n ≤ MPI_MAX_LIMBS → ∃ Y, mpi_grow X n = .ok Y ∧
      n ≤ Y.p.length ∧ mpiVal Y = mpiVal X ∧ Y.s = X.s ∧
      (∀ i, X.p.length ≤ i → Y.p.getD i 0 = 0) ∧
      (∀ i, i < X.p.length → Y.p.getD i 0 = X.p.getD i 0)) ∧
    (∀ X n, MPI_MAX_LIMBS < n → mpi_grow X n = .error .ALLOC) ∧
    (∀ A B, MPI_MAX_LIMBS < (natToLimbs (limbsVal A.p * limbsVal B.p)).length →
      mpi_mul_mpi A B = .error .ALLOC) ∧
    (∀ A B, A.s = B.s →
      MPI_MAX_LIMBS < (natToLimbs (limbsVal A.p + limbsVal B.p)).length →
      mpi_add_mpi A B = .error .ALLOC) := by
  refine ⟨?_, ?_, ?_, ?_⟩
  · intro X n hn
    unfold mpi_grow
    rw [if_neg (by omega)]
    rcases Nat.lt_or_ge X.p.length n with hlen | hlen
    · rw [if_pos hlen]
      refine ⟨_, rfl, ?_, ?_, rfl, ?_, ?_⟩
      · simp
        omega
      · unfold mpiVal
        rw [limbsVal_append_zeros]
      · intro i hi
        rw [List.getD_append_right _ _ _ _ hi]
        exact replicate_getD _ _
      · intro i hi
        exact List.getD_append _ _ _ _ hi
    · rw [if_neg (by omega)]
      exact ⟨X, rfl, by omega, rfl, rfl, fun i hi => by
        rw [List.getD_eq_default _ _ hi], fun i _ => rfl⟩
  · intro X n hn
    unfold mpi_grow
    rw [if_pos hn]
  · intro A B h
    unfold mpi_mul_mpi
    exact mkMpi_alloc h
  · intro A B hs h
    unfold mpi_add_mpi
    rw [if_pos hs]
    exact mkMpi_alloc h

/-- Witness for C8 at `X = (1,[7])`, `n = 3` and `n = 10001`. -/
theorem mpi_grow_claim_witness :
    (∃ Y, mpi_grow ⟨1, [7]⟩ 3 = .ok Y ∧
      3 ≤ Y.p.length ∧ mpiVal Y = mpiVal ⟨1, [7]⟩ ∧ Y.s = (⟨1, [7]⟩ : mpi).s ∧
      (∀ i, (⟨1, [7]⟩ : mpi).p.length ≤ i → Y.p.getD i 0 = 0) ∧
      (∀ i, i < (⟨1, [7]⟩ : mpi).p.length →
        Y.p.getD i 0 = (⟨1, [7]⟩ : mpi).p.getD i 0)) ∧
    mpi_grow ⟨1, [7]⟩ 10001 = .error .ALLOC :=
  ⟨mpi_grow_claim.1 ⟨1, [7]⟩ 3 (by decide),
    mpi_grow_claim.2.1 ⟨1, [7]⟩ 10001 (by decide)⟩

theorem limbRadix_eq : limbRadix = 2 ^ 32 := rfl

/-- Number of 32-bit limbs of `n`: `ceil(bitlen/32)` (at least 1 for `n ≥ 1`). -/
def limbCount (n : Nat) : Nat := (mpi_msb n + 31) / 32

theorem limbCount_lt (n : Nat) : n < 2 ^ (32 * limbCount n) := by
  have h1 : n < 2 ^ mpi_msb n := mpi_msb_lt n
  have h2 : mpi_msb n ≤ 32 * limbCount n := by
    unfold limbCount; omega
  exact Nat.lt_of_lt_of_le h1 (Nat.pow_le_pow_right (by omega) h2)

/-- One Newton step `x ← x·(2 − n0·x) mod 2^32` over the limb ring. -/
def mmStep (n0 x : Nat) : Nat :=
  x * ((2 + limbRadix * limbRadix - n0 * x) % limbRadix) % limbRadix

/-- The Newton iterates, starting from `n0` itself. -/
def mmIter (n0 : Nat) : Nat → Nat
  | 0 => n0 % limbRadix
  | j + 1 => mmStep n0 (mmIter n0 j)

/-- Modelled from the spec: the Montgomery setup constant
`mm = −n[0]^(−1) mod 2^limb_bits`, obtained by five Newton iterations over
the limb ring and a final negation. -/
def montInit (n : Nat) : Nat := (limbRadix - mmIter (n % limbRadix) 5) % limbRadix

theorem mmIter_lt (n0 j : Nat) : mmIter n0 j < limbRadix := by
  cases j with
  | zero => exact Nat.mod_lt _ (by norm_num [limbRadix])
  | succ j => exact Nat.mod_lt _ (by norm_num [limbRadix])


theorem mmStep_inv {n0 x : Nat} {j k : Nat} (hk2 : k ≤ 2 * j) (hk32 : k ≤ 32)
    (hx : x < limbRadix) (hn0 : n0 < limbRadix)
    (h : ((n0 * x : Nat) : Int) ≡ 1 [ZMOD (2 : Int) ^ j]) :
    ((n0 * mmStep n0 x : Nat) : Int) ≡ 1 [ZMOD (2 : Int) ^ k] := by
  set M : Int := (limbRadix : Int) with hMdef
  have hM : M = (2 : Int) ^ 32 := by norm_num [hMdef, limbRadix]
  have hdvdM : ((2 : Int) ^ k) ∣ M := by rw [hM]; exact pow_dvd_pow 2 hk32
  have hle : n0 * x ≤ 2 + limbRadix * limbRadix := by nlinarith
  set d : Int := (n0 : Int) * (x : Int) with hddef
  have hcast : ((mmStep n0 x : Nat) : Int) =
      ((x : Int) * ((2 + M * M - d) % M)) % M := by
    unfold mmStep
    push_cast [Nat.cast_sub hle]
    ring_nf
  have drop1 : ∀ a : Int, a % M ≡ a [ZMOD (2 : Int) ^ k] := fun a =>
    Int.emod_emod_of_dvd a hdvdM
  have hdvd1 : ((2 : Int) ^ k) ∣ (1 - d) ^ 2 := by
    obtain ⟨t, ht⟩ := (Int.modEq_iff_dvd.mp h)
    have h2 : (1 - d) ^ 2 = (2 : Int) ^ (2 * j) * t ^ 2 := by
      have hd1 : (1 : Int) - d = 2 ^ j * t := by
        rw [hddef]; push_cast at ht ⊢; linarith
      rw [hd1]
      ring
    rw [h2]
    exact Dvd.dvd.mul_right (pow_dvd_pow 2 hk2) _
  have hdvd2 : ((2 : Int) ^ k) ∣ d * M * M :=
    dvd_mul_of_dvd_right hdvdM (d * M)
  have step3 : d * (2 + M * M - d) ≡ 1 [ZMOD (2 : Int) ^ k] := by
    rw [Int.modEq_iff_dvd]
    have heq : 1 - d * (2 + M * M - d) = (1 - d) ^ 2 - d * M * M := by ring
    rw [heq]
    exact dvd_sub hdvd1 hdvd2
  calc ((n0 * mmStep n0 x : Nat) : Int)
      = (n0 : Int) * (((x : Int) * ((2 + M * M - d) % M)) % M) := by
        push_cast
        rw [hcast]
    _ ≡ (n0 : Int) * ((x : Int) * ((2 + M * M - d) % M)) [ZMOD (2 : Int) ^ k] :=
        (drop1 _).mul_left _
    _ = d * ((2 + M * M - d) % M) := by rw [hddef]; ring
    _ ≡ d * (2 + M * M - d) [ZMOD (2 : Int) ^ k] := (drop1 _).mul_left _
    _ ≡ 1 [ZMOD (2 : Int) ^ k] := step3

theorem mmIter5_inv {n0 : Nat} (hodd : n0 % 2 = 1) (hn0 : n0 < limbRadix) :
    ((n0 * mmIter n0 5 : Nat) : Int) ≡ 1 [ZMOD (2 : Int) ^ 32] := by
  have h0 : ((n0 * mmIter n0 0 : Nat) : Int) ≡ 1 [ZMOD (2 : Int) ^ 3] := by
    show ((n0 * (n0 % limbRadix) : Nat) : Int) ≡ 1 [ZMOD (2 : Int) ^ 3]
    rw [Nat.mod_eq_of_lt hn0]
    obtain ⟨t, ht⟩ : ∃ t, n0 = 2 * t + 1 := ⟨n0 / 2, by omega⟩
    rw [Int.modEq_iff_dvd]
    obtain ⟨u, hu⟩ := Int.even_mul_succ_self (t : Int)
    refine ⟨-u, ?_⟩
    push_cast [ht]
    linear_combination (-4 : Int) * hu
  have h1 := mmStep_inv (j := 3) (k := 6) (by omega) (by omega)
    (mmIter_lt n0 0) hn0 h0
  have h2 := mmStep_inv (j := 6) (k := 12) (by omega) (by omega)
    (mmIter_lt n0 1) hn0 h1
  have h3 := mmStep_inv (j := 12) (k := 24) (by omega) (by omega)
    (mmIter_lt n0 2) hn0 h2
  have h4 := mmStep_inv (j := 24) (k := 32) (by omega) (by omega)
    (mmIter_lt n0 3) hn0 h3
  have h5 := mmStep_inv (j := 32) (k := 32) (by omega) (by omega)
    (mmIter_lt n0 4) hn0 h4
  exact h5

theorem montInit_dvd {n : Nat} (hodd : n % 2 = 1) :
    limbRadix ∣ (n * montInit n + 1) := by
  have hodd0 : (n % limbRadix) % 2 = 1 := by
    rw [Nat.mod_mod_of_dvd n (by norm_num [limbRadix])]
    exact hodd
  have hx5 := mmIter5_inv hodd0 (Nat.mod_lt _ (by norm_num [limbRadix]))
  rw [← Int.natCast_dvd_natCast]
  push_cast
  set M : Int := (limbRadix : Int) with hMdef
  have hM : M = (2 : Int) ^ 32 := by norm_num [hMdef, limbRadix]
  set x5 : Int := ((mmIter (n % limbRadix) 5 : Nat) : Int) with hx5def
  have hcast : ((montInit n : Nat) : Int) = (M - x5) % M := by
    unfold montInit
    push_cast [Nat.cast_sub (le_of_lt (mmIter_lt _ 5))]
    rfl
  have drop : ∀ a : Int, a % M ≡ a [ZMOD M] := fun a =>
    Int.emod_emod_of_dvd a dvd_rfl
  have hn0cast : ((n % limbRadix : Nat) : Int) = (n : Int) % M := by push_cast; rfl
  have hkey : (n : Int) * ((M - x5) % M) + 1 ≡ 0 [ZMOD M] := by
    calc (n : Int) * ((M - x5) % M) + 1
        ≡ (n : Int) * (M - x5) + 1 [ZMOD M] := ((drop _).mul_left _).add_right 1
      _ ≡ 1 - ((n : Int) % M) * x5 [ZMOD M] := by
          rw [Int.modEq_iff_dvd]
          refine ⟨(n : Int) / M * x5 - n, ?_⟩
          rw [Int.emod_def]
          ring
      _ ≡ 0 [ZMOD M] := by
          have hx5m : ((n : Int) % M) * x5 ≡ 1 [ZMOD M] := by
            rw [← hn0cast, hM]
            exact_mod_cast hx5
          have h10 := (Int.ModEq.refl (1 : Int)).sub hx5m
          simpa using h10
  rw [hcast]
  exact (Int.modEq_zero_iff_dvd).mp hkey

/-- One limb's worth of Montgomery reduction: absorb the low limb of `t`
by adding the multiple of `n` that clears it, then shift down. -/
def montStep (n mm t : Nat) : Nat :=
  (t + t % limbRadix * mm % limbRadix * n) / limbRadix

/-- `k` limb steps of Montgomery reduction. -/
def montRedLoop (n mm : Nat) : Nat → Nat → Nat
  | 0, t => t
  | k + 1, t => montRedLoop n mm k (montStep n mm t)

/-- Modelled from the spec: Montgomery reduction of `t` over the `k` limbs
of `n`, with the final conditional subtraction. -/
def montRed (n mm k t : Nat) : Nat :=
  if n ≤ montRedLoop n mm k t then montRedLoop n mm k t - n
  else montRedLoop n mm k t

/-- Modelled from the spec: Montgomery multiplication — the interleaved CIOS
loop over `muladdc` collapsed to its value semantics: reduce the product. -/
def montMul (n mm k x y : Nat) : Nat := montRed n mm k (x * y)

theorem montStep_dvd {n mm : Nat} (h : limbRadix ∣ (n * mm + 1)) (t : Nat) :
    limbRadix ∣ (t + t % limbRadix * mm % limbRadix * n) := by
  have e1 : t % limbRadix * mm % limbRadix ≡ t * mm [MOD limbRadix] :=
    (Nat.mod_modEq _ _).trans ((Nat.mod_modEq t limbRadix).mul_right mm)
  have h1 : t + t % limbRadix * mm % limbRadix * n ≡ t * (n * mm + 1) [MOD limbRadix] := by
    calc t + t % limbRadix * mm % limbRadix * n
        ≡ t + t * mm * n [MOD limbRadix] := (e1.mul_right n).add_left t
      _ = t * (n * mm + 1) := by ring
  exact Nat.modEq_zero_iff_dvd.mp
    (h1.trans (Nat.modEq_zero_iff_dvd.mpr (Dvd.dvd.mul_left h t)))

theorem montStep_mul {n mm : Nat} (h : limbRadix ∣ (n * mm + 1)) (t : Nat) :
    montStep n mm t * limbRadix = t + t % limbRadix * mm % limbRadix * n :=
  Nat.div_mul_cancel (montStep_dvd h t)

theorem montStep_modeq {n mm : Nat} (h : limbRadix ∣ (n * mm + 1)) (t : Nat) :
    montStep n mm t * limbRadix ≡ t [MOD n] := by
  rw [montStep_mul h t]
  have : t % limbRadix * mm % limbRadix * n ≡ 0 [MOD n] :=
    Nat.modEq_zero_iff_dvd.mpr (Dvd.dvd.mul_left dvd_rfl _)
  calc t + t % limbRadix * mm % limbRadix * n
      ≡ t + 0 [MOD n] := this.add_left t
    _ = t := by ring

theorem montStep_bound {n mm t j : Nat} (hj : 1 ≤ j)
    (ht : t < limbRadix ^ j * n + n) :
    montStep n mm t < limbRadix ^ (j - 1) * n + n := by
  unfold montStep
  rw [Nat.div_lt_iff_lt_mul (by norm_num [limbRadix] : 0 < limbRadix)]
  have hm : t % limbRadix * mm % limbRadix < limbRadix :=
    Nat.mod_lt _ (by norm_num [limbRadix])
  have h3 : t % limbRadix * mm % limbRadix * n + n ≤ limbRadix * n := by
    have := Nat.mul_le_mul_right n
      (show t % limbRadix * mm % limbRadix + 1 ≤ limbRadix by omega)
    calc t % limbRadix * mm % limbRadix * n + n
        = (t % limbRadix * mm % limbRadix + 1) * n := by ring
      _ ≤ limbRadix * n := this
  have hpow : limbRadix ^ j = limbRadix * limbRadix ^ (j - 1) := by
    calc limbRadix ^ j = limbRadix ^ (j - 1 + 1) := by
          rw [Nat.sub_add_cancel hj]
      _ = limbRadix * limbRadix ^ (j - 1) := by
          rw [Nat.pow_succ]; ring
  rw [hpow] at ht
  calc t + t % limbRadix * mm % limbRadix * n
      < limbRadix * limbRadix ^ (j - 1) * n + n
        + t % limbRadix * mm % limbRadix * n := by omega
    _ ≤ limbRadix * limbRadix ^ (j - 1) * n + limbRadix * n := by omega
    _ = (limbRadix ^ (j - 1) * n + n) * limbRadix := by ring

theorem montRedLoop_spec {n mm : Nat} (h : limbRadix ∣ (n * mm + 1)) :
    ∀ k t, t < limbRadix ^ k * n + n →
      montRedLoop n mm k t < 2 * n ∧
      montRedLoop n mm k t * limbRadix ^ k ≡ t [MOD n] := by
  intro k
  induction k with
  | zero =>
    intro t ht
    refine ⟨by simpa [montRedLoop, Nat.two_mul] using ht, ?_⟩
    simpa [montRedLoop] using Nat.ModEq.refl t
  | succ k ih =>
    intro t ht
    have hstep : montStep n mm t < limbRadix ^ k * n + n := by
      have hres := @montStep_bound n mm t (k + 1) (by omega) ht
      simpa using hres
    obtain ⟨hb, hm⟩ := ih (montStep n mm t) hstep
    refine ⟨by simpa [montRedLoop] using hb, ?_⟩
    show montRedLoop n mm k (montStep n mm t) * limbRadix ^ (k + 1) ≡ t [MOD n]
    calc montRedLoop n mm k (montStep n mm t) * limbRadix ^ (k + 1)
        = montRedLoop n mm k (montStep n mm t) * limbRadix ^ k * limbRadix := by
          rw [Nat.pow_succ]; ring
      _ ≡ montStep n mm t * limbRadix [MOD n] := hm.mul_right limbRadix
      _ ≡ t [MOD n] := montStep_modeq h t

theorem montRed_spec {n mm k t : Nat} (h : limbRadix ∣ (n * mm + 1))
    (_hn : 0 < n) (ht : t < limbRadix ^ k * n + n) :
    montRed n mm k t < n ∧ montRed n mm k t * limbRadix ^ k ≡ t [MOD n] := by
  obtain ⟨hb, hm⟩ := montRedLoop_spec h k t ht
  unfold montRed
  split
  · refine ⟨by omega, ?_⟩
    have heq : (montRedLoop n mm k t - n) * limbRadix ^ k + n * limbRadix ^ k
        = montRedLoop n mm k t * limbRadix ^ k := by
      have hle : n ≤ montRedLoop n mm k t := by omega
      calc (montRedLoop n mm k t - n) * limbRadix ^ k + n * limbRadix ^ k
          = (montRedLoop n mm k t - n + n) * limbRadix ^ k := by ring
        _ = montRedLoop n mm k t * limbRadix ^ k := by
            rw [Nat.sub_add_cancel hle]
    have h0 : n * limbRadix ^ k ≡ 0 [MOD n] :=
      Nat.modEq_zero_iff_dvd.mpr (Dvd.dvd.mul_right dvd_rfl _)
    calc (montRedLoop n mm k t - n) * limbRadix ^ k
        ≡ (montRedLoop n mm k t - n) * limbRadix ^ k + n * limbRadix ^ k [MOD n] := by
          have := h0.add_left ((montRedLoop n mm k t - n) * limbRadix ^ k)
          simpa using this.symm
      _ = montRedLoop n mm k t * limbRadix ^ k := heq
      _ ≡ t [MOD n] := hm
  · exact ⟨by omega, hm⟩

theorem montMul_spec {n mm k x y : Nat} (h : limbRadix ∣ (n * mm + 1))
    (hn : 0 < n) (hx : x < n) (hy : y < n) (hnk : n ≤ limbRadix ^ k) :
    montMul n mm k x y < n ∧
    montMul n mm k x y * limbRadix ^ k ≡ x * y [MOD n] := by
  unfold montMul
  apply montRed_spec h hn
  calc x * y ≤ x * n := Nat.mul_le_mul_left x (by omega)
    _ ≤ limbRadix ^ k * n := Nat.mul_le_mul_right n (by omega)
    _ < limbRadix ^ k * n + n := by omega

theorem coprime_limbpow {n : Nat} (hodd : n % 2 = 1) (k : Nat) :
    Nat.Coprime (limbRadix ^ k) n := by
  have h2 : Nat.Coprime 2 n := Nat.coprime_two_left.mpr (Nat.odd_iff.mpr hodd)
  have : Nat.Coprime (2 ^ (32 * k)) n := Nat.Coprime.pow_left _ h2
  rwa [limbRadix_eq, ← Nat.pow_mul]

/-- `x` is the Montgomery representative of the value `X` modulo `n` with
Montgomery constant `R`. -/
def MontRep (n R x X : Nat) : Prop := x < n ∧ x ≡ X * R [MOD n]

theorem montMul_rep {n mm k x y X Y : Nat} (h : limbRadix ∣ (n * mm + 1))
    (hodd : n % 2 = 1) (hn : 0 < n) (hnk : n ≤ limbRadix ^ k)
    (hx : MontRep n (limbRadix ^ k) x X) (hy : MontRep n (limbRadix ^ k) y Y) :
    MontRep n (limbRadix ^ k) (montMul n mm k x y) (X * Y) := by
  obtain ⟨hlt, hmeq⟩ := montMul_spec h hn hx.1 hy.1 hnk
  refine ⟨hlt, ?_⟩
  have hchain : montMul n mm k x y * limbRadix ^ k
      ≡ X * Y * limbRadix ^ k * limbRadix ^ k [MOD n] := by
    calc montMul n mm k x y * limbRadix ^ k
        ≡ x * y [MOD n] := hmeq
      _ ≡ X * limbRadix ^ k * (Y * limbRadix ^ k) [MOD n] := hx.2.mul hy.2
      _ = X * Y * limbRadix ^ k * limbRadix ^ k := by ring
  exact Nat.ModEq.cancel_right_of_coprime (Nat.Coprime.symm (coprime_limbpow hodd k)) hchain

/-- Modelled from the spec: the table of powers of the Montgomery-form base
used by the sliding window, built by repeated Montgomery multiplication
(`one` is the Montgomery representation of 1, `R mod n`). -/
def montPow (n mm k b one : Nat) : Nat → Nat
  | 0 => one
  | e + 1 => montMul n mm k b (montPow n mm k b one e)

theorem montPow_rep {n mm k b B : Nat} (h : limbRadix ∣ (n * mm + 1))
    (hodd : n % 2 = 1) (hn : 0 < n) (hnk : n ≤ limbRadix ^ k)
    (hb : MontRep n (limbRadix ^ k) b B) (e : Nat) :
    MontRep n (limbRadix ^ k) (montPow n mm k b (limbRadix ^ k % n) e) (B ^ e) := by
  induction e with
  | zero =>
    refine ⟨Nat.mod_lt _ hn, ?_⟩
    show limbRadix ^ k % n ≡ B ^ 0 * limbRadix ^ k [MOD n]
    simpa using Nat.mod_modEq (limbRadix ^ k) n
  | succ e ih =>
    have hres := montMul_rep h hodd hn hnk hb ih
    show MontRep n (limbRadix ^ k)
      (montMul n mm k b (montPow n mm k b (limbRadix ^ k % n) e)) (B ^ (e + 1))
    have hBE : B * B ^ e = B ^ (e + 1) := by rw [Nat.pow_succ]; ring
    rwa [hBE] at hres

/-- `j` successive Montgomery squarings. -/
def sqTimes (n mm k : Nat) : Nat → Nat → Nat
  | 0, x => x
  | j + 1, x => sqTimes n mm k j (montMul n mm k x x)

theorem sqTimes_rep {n mm k : Nat} (h : limbRadix ∣ (n * mm + 1))
    (hodd : n % 2 = 1) (hn : 0 < n) (hnk : n ≤ limbRadix ^ k) :
    ∀ j x X, MontRep n (limbRadix ^ k) x X →
      MontRep n (limbRadix ^ k) (sqTimes n mm k j x) (X ^ 2 ^ j) := by
  intro j
  induction j with
  | zero =>
    intro x X hx
    simpa [sqTimes] using hx
  | succ j ih =>
    intro x X hx
    have hsq := montMul_rep h hodd hn hnk hx hx
    have hres := ih (montMul n mm k x x) (X * X) hsq
    show MontRep n (limbRadix ^ k) (sqTimes n mm k j (montMul n mm k x x))
      (X ^ 2 ^ (j + 1))
    have hXE : (X * X) ^ 2 ^ j = X ^ 2 ^ (j + 1) := by
      rw [Nat.pow_succ]
      rw [← Nat.pow_two, ← Nat.pow_mul]
      ring_nf
    rwa [hXE] at hres

/-- Value of a bit string, most significant bit first. -/
def bitsToNat (l : List Bool) : Nat :=
  l.foldl (fun acc b => 2 * acc + (if b then 1 else 0)) 0

/-- Binary digits of `m`, least significant bit first (fuel-driven; fuel
`>= m` suffices). -/
def natBitsLE : Nat → Nat → List Bool
  | 0, _ => []
  | f + 1, m => if m = 0 then [] else decide (m % 2 = 1) :: natBitsLE f (m / 2)

theorem bitsToNat_foldl (l : List Bool) (a : Nat) :
    l.foldl (fun acc b => 2 * acc + (if b then 1 else 0)) a
      = a * 2 ^ l.length + bitsToNat l := by
  induction l generalizing a with
  | nil => simp [bitsToNat]
  | cons b t ih =>
    show List.foldl _ (2 * a + (if b then 1 else 0)) t = _
    rw [ih]
    have h2 : bitsToNat (b :: t) = (if b then 1 else 0) * 2 ^ t.length + bitsToNat t := by
      show List.foldl _ (2 * 0 + (if b then 1 else 0)) t = _
      rw [ih]
      ring_nf
    rw [List.length_cons, h2, Nat.pow_succ]
    ring

theorem bitsToNat_append (l1 l2 : List Bool) :
    bitsToNat (l1 ++ l2) = bitsToNat l1 * 2 ^ l2.length + bitsToNat l2 := by
  unfold bitsToNat
  rw [List.foldl_append]
  rw [show List.foldl (fun acc b => 2 * acc + (if b then 1 else 0)) 0 l1
    = bitsToNat l1 from rfl]
  exact bitsToNat_foldl l2 (bitsToNat l1)

theorem bitsToNat_replicate_false (z : Nat) :
    bitsToNat (List.replicate z false) = 0 := by
  induction z with
  | zero => rfl
  | succ j ih =>
    show bitsToNat (false :: List.replicate j false) = 0
    unfold bitsToNat at ih ⊢
    simpa using ih

theorem natBitsLE_val {f m : Nat} (h : m ≤ f) :
    bitsToNat (natBitsLE f m).reverse = m := by
  induction f generalizing m with
  | zero =>
    have : m = 0 := by omega
    subst this; rfl
  | succ f ih =>
    unfold natBitsLE
    split
    · rename_i hm
      subst hm
      rfl
    · have hm : 0 < m := by omega
      rw [List.reverse_cons, bitsToNat_append, ih (by omega)]
      have hbit : bitsToNat [decide (m % 2 = 1)] = m % 2 := by
        rcases Nat.mod_two_eq_zero_or_one m with h2 | h2 <;> rw [h2] <;> rfl
      rw [hbit]
      simp only [List.length_cons, List.length_nil]
      omega

/-- The window bits with their trailing zero bits stripped. -/
def winCore (win : List Bool) : List Bool :=
  (win.reverse.dropWhile (fun b => decide (b = false))).reverse

theorem winCore_length_le (win : List Bool) : (winCore win).length ≤ win.length := by
  unfold winCore
  have hsum : (win.reverse.takeWhile (fun b => decide (b = false))).length +
      (win.reverse.dropWhile (fun b => decide (b = false))).length = win.length := by
    rw [← List.length_append, List.takeWhile_append_dropWhile, List.length_reverse]
  rw [List.length_reverse]
  omega

theorem winCore_split (win : List Bool) :
    win = winCore win ++
      List.replicate (win.length - (winCore win).length) false := by
  have h1 : win = winCore win ++
      (win.reverse.takeWhile (fun b => decide (b = false))).reverse := by
    unfold winCore
    conv_lhs => rw [← List.reverse_reverse win,
      ← List.takeWhile_append_dropWhile (p := fun b => decide (b = false))
        (l := win.reverse)]
    rw [List.reverse_append]
  have h2 : (win.reverse.takeWhile (fun b => decide (b = false))).reverse =
      List.replicate (win.length - (winCore win).length) false := by
    have hall : ∀ b ∈ (win.reverse.takeWhile (fun b => decide (b = false))).reverse,
        b = false := by
      intro b hb
      rw [List.mem_reverse] at hb
      simpa using List.mem_takeWhile_imp hb
    have hlen : (win.reverse.takeWhile (fun b => decide (b = false))).reverse.length
        = win.length - (winCore win).length := by
      have hsum : (win.reverse.takeWhile (fun b => decide (b = false))).length +
          (win.reverse.dropWhile (fun b => decide (b = false))).length
          = win.length := by
        rw [← List.length_append, List.takeWhile_append_dropWhile,
          List.length_reverse]
      unfold winCore
      rw [List.length_reverse, List.length_reverse]
      omega
    rw [← hlen]
    exact List.eq_replicate_of_mem hall
  rw [← h2]
  exact h1

/-- One sliding-window flush: square once per significant window bit,
multiply by the table entry for the window's odd value, then square once
per stripped trailing zero bit. -/
def winStep (n mm k aM : Nat) (win : List Bool) (acc : Nat) : Nat :=
  sqTimes n mm k (win.length - (winCore win).length)
    (montMul n mm k (sqTimes n mm k (winCore win).length acc)
      (montPow n mm k aM (limbRadix ^ k % n) (bitsToNat (winCore win))))

theorem winStep_rep {n mm k aM A acc V : Nat} (h : limbRadix ∣ (n * mm + 1))
    (hodd : n % 2 = 1) (hn : 0 < n) (hnk : n ≤ limbRadix ^ k)
    (haM : MontRep n (limbRadix ^ k) aM A)
    (hacc : MontRep n (limbRadix ^ k) acc V) (win : List Bool) :
    MontRep n (limbRadix ^ k) (winStep n mm k aM win acc)
      (V ^ 2 ^ win.length * A ^ bitsToNat win) := by
  have ha1 := sqTimes_rep h hodd hn hnk (winCore win).length acc V hacc
  have hu := montPow_rep h hodd hn hnk haM (bitsToNat (winCore win))
  have ha2 := montMul_rep h hodd hn hnk ha1 hu
  have hcle := winCore_length_le win
  obtain ⟨z, hzdef⟩ : ∃ z, win.length - (winCore win).length = z := ⟨_, rfl⟩
  have ha3 := sqTimes_rep h hodd hn hnk z _ _ ha2
  have hlen : win.length = (winCore win).length + z := by omega
  have hb : bitsToNat win = bitsToNat (winCore win) * 2 ^ z := by
    conv_lhs => rw [winCore_split win]
    rw [bitsToNat_append, bitsToNat_replicate_false, List.length_replicate, hzdef]
    omega
  have hval : (V ^ 2 ^ (winCore win).length * A ^ bitsToNat (winCore win)) ^ 2 ^ z
      = V ^ 2 ^ win.length * A ^ bitsToNat win := by
    rw [hb, hlen, pow_add, Nat.mul_pow, ← pow_mul, ← pow_mul]
  show MontRep n (limbRadix ^ k) (winStep n mm k aM win acc)
    (V ^ 2 ^ win.length * A ^ bitsToNat win)
  unfold winStep
  rw [hzdef]
  rwa [hval] at ha3

/-- Modelled from the spec: the sliding-window scan of the exponent bits,
most significant bit first. A zero bit squares the accumulator; a one bit
opens a window of up to `w` bits, squares once per window bit, multiplies
by the precomputed odd power and squares once per stripped trailing zero
(fuel-driven; fuel `>= |bits|` suffices). -/
def expScan (n mm k aM w : Nat) : Nat → List Bool → Nat → Nat
  | 0, _, acc => acc
  | _ + 1, [], acc => acc
  | f + 1, false :: rest, acc => expScan n mm k aM w f rest (montMul n mm k acc acc)
  | f + 1, true :: rest, acc =>
    expScan n mm k aM w f (rest.drop (w - 1))
      (winStep n mm k aM (true :: rest.take (w - 1)) acc)

theorem expScan_rep {n mm k aM A w : Nat} (h : limbRadix ∣ (n * mm + 1))
    (hodd : n % 2 = 1) (hn : 0 < n) (hnk : n ≤ limbRadix ^ k)
    (haM : MontRep n (limbRadix ^ k) aM A) :
    ∀ f bits acc V, bits.length ≤ f → MontRep n (limbRadix ^ k) acc V →
      MontRep n (limbRadix ^ k) (expScan n mm k aM w f bits acc)
        (V ^ 2 ^ bits.length * A ^ bitsToNat bits) := by
  intro f
  induction f with
  | zero =>
    intro bits acc V hlen hacc
    have hnil : bits = [] := List.length_eq_zero.mp (by omega)
    subst hnil
    simpa [expScan, bitsToNat] using hacc
  | succ f ih =>
    intro bits acc V hlen hacc
    match bits with
    | [] => simpa [expScan, bitsToNat] using hacc
    | false :: rest =>
      have hsq := montMul_rep h hodd hn hnk hacc hacc
      have hres := ih rest (montMul n mm k acc acc) (V * V)
        (by simp only [List.length_cons] at hlen; omega) hsq
      show MontRep n (limbRadix ^ k)
        (expScan n mm k aM w f rest (montMul n mm k acc acc)) _
      have hbfalse : bitsToNat (false :: rest) = bitsToNat rest := rfl
      have hVE : (V * V) ^ 2 ^ rest.length = V ^ 2 ^ (false :: rest).length := by
        rw [List.length_cons, ← pow_two, ← pow_mul]
        congr 1
        rw [pow_succ]
        omega
      rwa [hVE, ← hbfalse] at hres
    | true :: rest =>
      have hw := winStep_rep h hodd hn hnk haM hacc (true :: rest.take (w - 1))
      have hlen2 : (rest.drop (w - 1)).length ≤ f := by
        have := List.length_drop (w - 1) rest
        simp only [List.length_cons] at hlen
        omega
      have hres := ih (rest.drop (w - 1)) _ _ hlen2 hw
      show MontRep n (limbRadix ^ k)
        (expScan n mm k aM w f (rest.drop (w - 1))
          (winStep n mm k aM (true :: rest.take (w - 1)) acc)) _
      have happ : (true :: rest.take (w - 1)) ++ rest.drop (w - 1)
          = true :: rest := by
        rw [List.cons_append, List.take_append_drop]
      have hlen3 : (true :: rest).length = (true :: rest.take (w - 1)).length
          + (rest.drop (w - 1)).length := by
        conv_lhs => rw [← happ]
        rw [List.length_append]
      have hb3 : bitsToNat (true :: rest)
          = bitsToNat (true :: rest.take (w - 1)) * 2 ^ (rest.drop (w - 1)).length
            + bitsToNat (rest.drop (w - 1)) := by
        conv_lhs => rw [← happ]
        rw [bitsToNat_append]
      have hval : (V ^ 2 ^ (true :: rest.take (w - 1)).length *
          A ^ bitsToNat (true :: rest.take (w - 1))) ^ 2 ^ (rest.drop (w - 1)).length *
          A ^ bitsToNat (rest.drop (w - 1))
          = V ^ 2 ^ (true :: rest).length * A ^ bitsToNat (true :: rest) := by
        rw [hlen3, hb3, pow_add, Nat.mul_pow, ← pow_mul, ← pow_mul, pow_add]
        ring
      rwa [hval] at hres

/-- Modelled from the spec: window width chosen from the exponent bit length
(spec step 4 table: up to 17 bits of exponent use width 1, up to 49 width 2,
up to 115 width 3, up to 275 width 4, up to 670 width 5, else width 6). -/
def windowSize (bits : Nat) : Nat :=
  if bits ≤ 17 then 1 else if bits ≤ 49 then 2 else if bits ≤ 115 then 3
  else if bits ≤ 275 then 4 else if bits ≤ 670 then 5 else 6

/-- The `R² mod N` value used by `exp_mod`: taken from the `_RR` cache when
one is supplied, freshly computed otherwise. -/
def expModRR (n : Int) (rr : Option Nat) : Nat :=
  rr.getD (limbRadix ^ limbCount n.toNat * limbRadix ^ limbCount n.toNat % n.toNat)

/-- The exponent bits, most significant first. -/
def expModBits (e : Int) : List Bool := (natBitsLE e.toNat e.toNat).reverse

/-- The numeric core of `exp_mod` for an odd positive modulus: convert the
reduced base to Montgomery form (a Montgomery multiplication by `R² mod N`),
run the sliding-window scan starting from the Montgomery representation of 1
(`R mod N`), and convert back with a final Montgomery multiplication by 1. -/
def expModCore (a e n : Int) (rr : Option Nat) : Nat :=
  montMul n.toNat (montInit n.toNat) (limbCount n.toNat)
    (expScan n.toNat (montInit n.toNat) (limbCount n.toNat)
      (montMul n.toNat (montInit n.toNat) (limbCount n.toNat) (a % n).toNat
        (expModRR n rr))
      (windowSize (expModBits e).length) (expModBits e).length (expModBits e)
      (limbRadix ^ limbCount n.toNat % n.toNat)) 1

/-- Modelled from the spec: sliding-window modular exponentiation
`exp_mod(X, A, E, N, _RR)` (`mpi_exp_mod`, declared at bignum.h:391; the
implementation file is absent): fail `BAD_INPUT` unless `N` is positive and
odd; otherwise Montgomery setup (`mm` from five Newton iterations,
`R² mod N` from the `_RR` cache when populated, computed otherwise), base
reduction into `[0, N)`, sliding-window scan of the exponent, and the final
conversion out of Montgomery form. Returns the result together with the
`R² mod N` cache value. -/
def mpi_exp_mod (a e n : Int) (rr : Option Nat) : Except MpiErr (Int × Nat) :=
  if n ≤ 0 ∨ n % 2 = 0 then .error .BAD_INPUT
  else .ok ((expModCore a e n rr : Int), expModRR n rr)

theorem expModCore_eq {a e n : Int} {rr : Option Nat} (hn2 : 1 < n)
    (hodd : n % 2 = 1)
    (hrr : rr = none ∨ rr = some (limbRadix ^ limbCount n.toNat *
      limbRadix ^ limbCount n.toNat % n.toNat)) :
    expModCore a e n rr = (a % n).toNat ^ e.toNat % n.toNat := by
  set nn := n.toNat with hnn
  set k := limbCount nn with hk
  set mm := montInit nn with hmm
  have hnn2 : 1 < nn := by omega
  have hnn0 : 0 < nn := by omega
  have hoddn : nn % 2 = 1 := by omega
  have hnk : nn ≤ limbRadix ^ k := by
    have h1 := limbCount_lt nn
    rw [← hk] at h1
    rw [limbRadix_eq, ← Nat.pow_mul]
    omega
  have hdvd : limbRadix ∣ (nn * mm + 1) := montInit_dvd hoddn
  have hRReq : expModRR n rr = limbRadix ^ k * limbRadix ^ k % nn := by
    rcases hrr with hc | hc <;> rw [hc] <;> rfl
  have hcop : Nat.Coprime nn (limbRadix ^ k) :=
    Nat.Coprime.symm (coprime_limbpow hoddn k)
  have haRedlt : (a % n).toNat < nn := by
    have h1 : 0 ≤ a % n := Int.emod_nonneg a (by omega)
    have h2 : a % n < n := Int.emod_lt_of_pos a (by omega)
    omega
  have hRRlt : expModRR n rr < nn := by
    rw [hRReq]; exact Nat.mod_lt _ hnn0
  have haMspec := montMul_spec hdvd hnn0 haRedlt hRRlt hnk
  have haM : MontRep nn (limbRadix ^ k) (montMul nn mm k (a % n).toNat
      (expModRR n rr)) (a % n).toNat := by
    refine ⟨haMspec.1, ?_⟩
    have hstep : (a % n).toNat * expModRR n rr
        ≡ (a % n).toNat * limbRadix ^ k * limbRadix ^ k [MOD nn] := by
      rw [hRReq]
      calc (a % n).toNat * (limbRadix ^ k * limbRadix ^ k % nn)
          ≡ (a % n).toNat * (limbRadix ^ k * limbRadix ^ k) [MOD nn] :=
            (Nat.mod_modEq _ _).mul_left _
        _ = (a % n).toNat * limbRadix ^ k * limbRadix ^ k := by ring
    exact Nat.ModEq.cancel_right_of_coprime hcop (haMspec.2.trans hstep)
  have hacc0 : MontRep nn (limbRadix ^ k) (limbRadix ^ k % nn) 1 := by
    refine ⟨Nat.mod_lt _ hnn0, ?_⟩
    simpa using Nat.mod_modEq (limbRadix ^ k) nn
  have hscan := expScan_rep (w := windowSize (expModBits e).length)
    hdvd hoddn hnn0 hnk haM (expModBits e).length
    (expModBits e) (limbRadix ^ k % nn) 1 (Nat.le_refl _) hacc0
  have hbitsval : bitsToNat (expModBits e) = e.toNat := natBitsLE_val (Nat.le_refl _)
  rw [hbitsval, one_pow, one_mul] at hscan
  have hfin := montMul_spec hdvd hnn0 hscan.1 (by omega : 1 < nn) hnk
  unfold expModCore
  rw [← hnn, ← hk, ← hmm]
  have hch : montMul nn mm k (expScan nn mm k (montMul nn mm k (a % n).toNat
        (expModRR n rr)) (windowSize (expModBits e).length) (expModBits e).length
        (expModBits e) (limbRadix ^ k % nn)) 1 * limbRadix ^ k
      ≡ (a % n).toNat ^ e.toNat * limbRadix ^ k [MOD nn] := by
    calc montMul nn mm k (expScan nn mm k (montMul nn mm k (a % n).toNat
          (expModRR n rr)) (windowSize (expModBits e).length) (expModBits e).length
          (expModBits e) (limbRadix ^ k % nn)) 1 * limbRadix ^ k
        ≡ expScan nn mm k (montMul nn mm k (a % n).toNat (expModRR n rr))
            (windowSize (expModBits e).length) (expModBits e).length
            (expModBits e) (limbRadix ^ k % nn) * 1 [MOD nn] := hfin.2
      _ = expScan nn mm k (montMul nn mm k (a % n).toNat (expModRR n rr))
            (windowSize (expModBits e).length) (expModBits e).length
            (expModBits e) (limbRadix ^ k % nn) := by ring
      _ ≡ (a % n).toNat ^ e.toNat * limbRadix ^ k [MOD nn] := hscan.2
  have hxeq := Nat.ModEq.cancel_right_of_coprime hcop hch
  calc montMul nn mm k (expScan nn mm k (montMul nn mm k (a % n).toNat
        (expModRR n rr)) (windowSize (expModBits e).length) (expModBits e).length
        (expModBits e) (limbRadix ^ k % nn)) 1
      = montMul nn mm k (expScan nn mm k (montMul nn mm k (a % n).toNat
        (expModRR n rr)) (windowSize (expModBits e).length) (expModBits e).length
        (expModBits e) (limbRadix ^ k % nn)) 1 % nn := (Nat.mod_eq_of_lt hfin.1).symm
    _ = (a % n).toNat ^ e.toNat % nn := hxeq

/-- C1: for every MPI `A`, every `E ≥ 0` and every odd `N > 1` (with `_RR`
either absent or holding the cached `R² mod N` for this `N`), `exp_mod`
succeeds with `X = A^E mod N` — in particular `exp_mod(A,0,N) = 1` and
`exp_mod(A,1,N) = A mod N` — and for every `N` that is not both positive
and odd it fails with `BAD_INPUT`. -/
theorem mpi_exp_mod_claim (a e n : Int) (rr : Option Nat) (he : 0 ≤ e)
    (hrr : rr = none ∨ rr = some (limbRadix ^ limbCount n.toNat *
      limbRadix ^ limbCount n.toNat % n.toNat)) :
    (1 < n ∧ n % 2 = 1 → ∃ c, mpi_exp_mod a e n rr = .ok (a ^ e.toNat % n, c)) ∧
    (¬ (0 < n ∧ n % 2 = 1) → mpi_exp_mod a e n rr = .error .BAD_INPUT) ∧
    (1 < n ∧ n % 2 = 1 → e = 0 → ∃ c, mpi_exp_mod a e n rr = .ok (1, c)) ∧
    (1 < n ∧ n % 2 = 1 → e = 1 → ∃ c, mpi_exp_mod a e n rr = .ok (a % n, c)) := by
  have hmain : 1 < n ∧ n % 2 = 1 →
      ∃ c, mpi_exp_mod a e n rr = .ok (a ^ e.toNat % n, c) := by
    rintro ⟨hn2, hodd⟩
    refine ⟨expModRR n rr, ?_⟩
    unfold mpi_exp_mod
    rw [if_neg (by omega)]
    have hcore := @expModCore_eq a e n rr hn2 hodd hrr
    rw [hcore]
    have h1 : (((a % n).toNat : Nat) : Int) = a % n :=
      Int.toNat_of_nonneg (Int.emod_nonneg a (by omega))
    have h2 : ((n.toNat : Nat) : Int) = n := Int.toNat_of_nonneg (by omega)
    have h3 : ((((a % n).toNat ^ e.toNat % n.toNat : Nat)) : Int)
        = a ^ e.toNat % n := by
      push_cast
      rw [h1, h2]
      exact (Int.ModEq.pow e.toNat (Int.emod_emod_of_dvd a dvd_rfl : (a % n) ≡ a [ZMOD n]))
    rw [h3]
  refine ⟨hmain, ?_, ?_, ?_⟩
  · intro hbad
    unfold mpi_exp_mod
    rw [if_pos (by omega)]
  · intro hok he0
    obtain ⟨c, hc⟩ := hmain hok
    subst he0
    refine ⟨c, ?_⟩
    rw [hc]
    rw [show ((0 : Int)).toNat = 0 from rfl, pow_zero,
      Int.emod_eq_of_lt (by omega) (by omega)]
  · intro hok he1
    obtain ⟨c, hc⟩ := hmain hok
    subst he1
    refine ⟨c, ?_⟩
    rw [hc]
    rw [show ((1 : Int)).toNat = 1 from rfl, pow_one]

/-- Witness for C1 at `A = 7`, `E = 5`, `N = 11`, `_RR = NULL`. -/
theorem mpi_exp_mod_claim_witness :
    ∃ c, mpi_exp_mod 7 5 11 none = .ok ((7 : Int) ^ ((5 : Int)).toNat % 11, c) :=
  (mpi_exp_mod_claim 7 5 11 none (by decide) (Or.inl rfl)).1 (by decide)

/-- The caller-visible state of an `exp_mod` call: the destination `X`, the
`const` inputs `A`, `E`, `N` (bignum.h:391) and the optional `_RR` cache. -/
structure ExpModState where
  X : Int
  A : Int
  E : Int
  N : Int
  RR : Option Nat

/-- Modelled from the spec and the header declaration (bignum.h:391):
`exp_mod` as a transformer of the caller-visible state. On success the
destination `X` is written and the `_RR` cache is populated (kept verbatim
when it was already populated); on failure nothing is written. -/
def mpi_exp_mod_state (s : ExpModState) : ExpModState × Except MpiErr Unit :=
  match mpi_exp_mod s.A s.E s.N s.RR with
  | .ok xr => ({ s with X := xr.1, RR := some xr.2 }, .ok ())
  | .error err => (s, .error err)

/-- C10: every `exp_mod` call — returning success or error — leaves the
`const` inputs `A`, `E`, `N` unchanged, and an `_RR` cache that was already
populated is only read, never modified. Only `X` and an empty `_RR` are
written. -/
theorem mpi_exp_mod_frame_claim (s : ExpModState) :
    (mpi_exp_mod_state s).1.A = s.A ∧ (mpi_exp_mod_state s).1.E = s.E ∧
    (mpi_exp_mod_state s).1.N = s.N ∧
    (∀ v, s.RR = some v → (mpi_exp_mod_state s).1.RR = some v) := by
  unfold mpi_exp_mod_state
  cases hm : mpi_exp_mod s.A s.E s.N s.RR with
  | error err => exact ⟨rfl, rfl, rfl, fun v hv => hv⟩
  | ok xr =>
    refine ⟨rfl, rfl, rfl, ?_⟩
    intro v hv
    show some xr.2 = some v
    unfold mpi_exp_mod at hm
    split at hm
    · cases hm
    · injection hm with hm
      have h2 : xr.2 = expModRR s.N s.RR := by rw [← hm]
      rw [h2, hv]
      rfl

/-- Witness for C10 at a concrete state with a populated cache. -/
theorem mpi_exp_mod_frame_claim_witness :
    (mpi_exp_mod_state ⟨0, 7, 5, 11, some 4⟩).1.A = 7 ∧
    (mpi_exp_mod_state ⟨0, 7, 5, 11, some 4⟩).1.RR = some 4 :=
  ⟨(mpi_exp_mod_frame_claim ⟨0, 7, 5, 11, some 4⟩).1,
    (mpi_exp_mod_frame_claim ⟨0, 7, 5, 11, some 4⟩).2.2.2 4 rfl⟩

/-- Modelled from the spec: the Bezout-coefficient adjustment of the binary
extended GCD — when halving is blocked by an odd coefficient, add `N` to the
first and subtract `TA` from the second (which leaves `u1*TA + u2*N`
unchanged and makes both coefficients even). -/
def invAdjust (ta nb u1 u2 : Int) : Int × Int :=
  if u1 % 2 = 0 ∧ u2 % 2 = 0 then (u1, u2) else (u1 + nb, u2 - ta)

/-- Modelled from the spec: strip the factors of two from `t` while keeping
the relation `u1*TA + u2*N = t` (fuel-driven; fuel `>= t` suffices). -/
def invHalve (ta nb : Int) : Nat → Nat → Int → Int → Nat × Int × Int
  | 0, t, u1, u2 => (t, u1, u2)
  | f + 1, t, u1, u2 =>
    if t % 2 = 1 ∨ t = 0 then (t, u1, u2)
    else
      invHalve ta nb f (t / 2) ((invAdjust ta nb u1 u2).1 / 2)
        ((invAdjust ta nb u1 u2).2 / 2)

/-- Modelled from the spec: the outer loop of the extended binary GCD of
`inv_mod` — strip factors of two from both triples, then subtract the
smaller from the larger, until `TU = 0` (fuel-driven; fuel `>= TU + TV`
suffices). -/
def invLoop (ta nb : Int) : Nat → Nat → Nat → Int → Int → Int → Int →
    Nat × Nat × Int × Int × Int × Int
  | 0, tu, tv, u1, u2, v1, v2 => (tu, tv, u1, u2, v1, v2)
  | f + 1, tu, tv, u1, u2, v1, v2 =>
    if tu = 0 then (tu, tv, u1, u2, v1, v2)
    else
      match invHalve ta nb tu tu u1 u2, invHalve ta nb tv tv v1 v2 with
      | (tu1, u1a, u2a), (tv1, v1a, v2a) =>
        if tv1 ≤ tu1 then
          invLoop ta nb f (tu1 - tv1) tv1 (u1a - v1a) (u2a - v2a) v1a v2a
        else
          invLoop ta nb f tu1 (tv1 - tu1) u1a u2a (v1a - u1a) (v2a - u2a)

/-- Modelled from the spec: modular inverse `inv_mod(X, A, N)`
(`mpi_inv_mod`, declared at bignum.h:422; the implementation file is
absent): fail `BAD_INPUT` when `N ≤ 1`, `NOT_ACCEPTABLE` when
`gcd(A, N) ≠ 1`; otherwise run the extended binary GCD on
`(A mod N, N)` maintaining `u1·TA + u2·N = u3`, and reduce the final
coefficient into `[0, N)`. -/
def mpi_inv_mod (a n : Int) : Except MpiErr Int :=
  if n ≤ 1 then .error .BAD_INPUT
  else if Nat.gcd a.natAbs n.natAbs ≠ 1 then .error .NOT_ACCEPTABLE
  else
    .ok ((invLoop (a % n) n ((a % n).toNat + n.toNat + 1) (a % n).toNat n.toNat
      1 0 0 1).2.2.2.2.1 % n)

theorem invAdjust_inv {ta nb u1 u2 t : Int} (hinv : u1 * ta + u2 * nb = t) :
    (invAdjust ta nb u1 u2).1 * ta + (invAdjust ta nb u1 u2).2 * nb = t := by
  unfold invAdjust
  split
  · exact hinv
  · show (u1 + nb) * ta + (u2 - ta) * nb = t
    linear_combination hinv

theorem invAdjust_even {ta nb u1 u2 t : Int} (hpar : ta % 2 = 1 ∨ nb % 2 = 1)
    (ht : t % 2 = 0) (hinv : u1 * ta + u2 * nb = t) :
    (invAdjust ta nb u1 u2).1 % 2 = 0 ∧ (invAdjust ta nb u1 u2).2 % 2 = 0 := by
  have hm : (u1 % 2 * (ta % 2) % 2 + u2 % 2 * (nb % 2) % 2) % 2 = 0 := by
    conv_lhs => rw [← Int.mul_emod, ← Int.mul_emod, ← Int.add_emod]
    rw [hinv, ht]
  unfold invAdjust
  split
  · rename_i hc
    exact hc
  · rename_i hc
    show (u1 + nb) % 2 = 0 ∧ (u2 - ta) % 2 = 0
    rcases Int.emod_two_eq ta with hta | hta <;>
      rcases Int.emod_two_eq nb with hnb | hnb <;>
      rcases Int.emod_two_eq u1 with hu1 | hu1 <;>
      rcases Int.emod_two_eq u2 with hu2 | hu2 <;>
      rw [hta, hnb, hu1, hu2] at hm <;>
      omega

theorem invHalve_spec {ta nb : Int} (hpar : ta % 2 = 1 ∨ nb % 2 = 1) :
    ∀ (f t : Nat) (u1 u2 : Int), t ≤ f → 1 ≤ t → u1 * ta + u2 * nb = (t : Int) →
      ∃ t' u1' u2', invHalve ta nb f t u1 u2 = (t', u1', u2') ∧
        u1' * ta + u2' * nb = (t' : Int) ∧ t' % 2 = 1 ∧ 1 ≤ t' ∧ t' ∣ t := by
  intro f
  induction f with
  | zero =>
    intro t u1 u2 ht h1 hinv
    omega
  | succ f ih =>
    intro t u1 u2 ht h1 hinv
    unfold invHalve
    by_cases hstop : t % 2 = 1 ∨ t = 0
    · rw [if_pos hstop]
      exact ⟨t, u1, u2, rfl, hinv, by omega, h1, dvd_rfl⟩
    · rw [if_neg hstop]
      have hte : t % 2 = 0 := by omega
      have ht2 : 2 ≤ t := by omega
      have htc : ((t : Nat) : Int) % 2 = 0 := by omega
      obtain ⟨he1, he2⟩ := invAdjust_even hpar htc hinv
      have hinv1 := invAdjust_inv (t := (t : Int)) hinv
      obtain ⟨x, hx⟩ := Int.dvd_of_emod_eq_zero he1
      obtain ⟨y, hy⟩ := Int.dvd_of_emod_eq_zero he2
      have hx2 : (invAdjust ta nb u1 u2).1 / 2 = x := by rw [hx]; omega
      have hy2 : (invAdjust ta nb u1 u2).2 / 2 = y := by rw [hy]; omega
      have hinv2 : (invAdjust ta nb u1 u2).1 / 2 * ta +
          (invAdjust ta nb u1 u2).2 / 2 * nb = ((t / 2 : Nat) : Int) := by
        rw [hx2, hy2]
        have hcast : ((t / 2 : Nat) : Int) * 2 = (t : Int) := by omega
        have hexp : x * ta + y * nb = ((t / 2 : Nat) : Int) := by
          have h2 : (2 * x) * ta + (2 * y) * nb = (t : Int) := by
            rw [← hx, ← hy]; exact hinv1
          linarith [hcast, h2]
        exact hexp
      obtain ⟨t', u1', u2', heq, hi, ho, h1', hdvd⟩ :=
        ih (t / 2) ((invAdjust ta nb u1 u2).1 / 2)
          ((invAdjust ta nb u1 u2).2 / 2) (by omega) (by omega) hinv2
      exact ⟨t', u1', u2', heq, hi, ho, h1',
        dvd_trans hdvd ⟨2, by omega⟩⟩

theorem coprime_sub_of_coprime {m n : Nat} (h : Nat.Coprime m n) (hle : n ≤ m) :
    Nat.Coprime (m - n) n := by
  have h1 : Nat.gcd (m - n) n ∣ m := by
    have hd1 : Nat.gcd (m - n) n ∣ m - n := Nat.gcd_dvd_left _ _
    have hd2 : Nat.gcd (m - n) n ∣ n := Nat.gcd_dvd_right _ _
    have := Nat.dvd_add hd1 hd2
    rwa [Nat.sub_add_cancel hle] at this
  have h2 : Nat.gcd (m - n) n ∣ Nat.gcd m n :=
    Nat.dvd_gcd h1 (Nat.gcd_dvd_right _ _)
  rw [h] at h2
  exact Nat.dvd_one.mp h2

theorem invLoop_spec {ta nb : Int} (hpar : ta % 2 = 1 ∨ nb % 2 = 1) :
    ∀ (f tu tv : Nat) (u1 u2 v1 v2 : Int), tu + tv ≤ f → 1 ≤ tv →
      Nat.Coprime tu tv →
      u1 * ta + u2 * nb = (tu : Int) → v1 * ta + v2 * nb = (tv : Int) →
      ∃ u1' u2' v1' v2', invLoop ta nb f tu tv u1 u2 v1 v2
          = (0, 1, u1', u2', v1', v2') ∧
        v1' * ta + v2' * nb = 1 := by
  intro f
  induction f with
  | zero =>
    intro tu tv u1 u2 v1 v2 hf h1 hcop hu hv
    omega
  | succ f ih =>
    intro tu tv u1 u2 v1 v2 hf h1 hcop hu hv
    unfold invLoop
    by_cases htu : tu = 0
    · rw [if_pos htu]
      subst htu
      have htv1 : tv = 1 := by
        have := Nat.coprime_zero_left tv
        exact this.mp hcop
      subst htv1
      exact ⟨u1, u2, v1, v2, rfl, by exact_mod_cast hv⟩
    · rw [if_neg htu]
      obtain ⟨tu1, u1a, u2a, hequ, hiu, hou, h1u, hdvdu⟩ :=
        invHalve_spec hpar tu tu u1 u2 (Nat.le_refl tu) (by omega) hu
      obtain ⟨tv1, v1a, v2a, heqv, hiv, hov, h1v, hdvdv⟩ :=
        invHalve_spec hpar tv tv v1 v2 (Nat.le_refl tv) h1 hv
      simp only [hequ, heqv]
      have hcop1 : Nat.Coprime tu1 tv1 :=
        Nat.Coprime.coprime_dvd_right hdvdv
          (Nat.Coprime.coprime_dvd_left hdvdu hcop)
      have htu1le : tu1 ≤ tu := Nat.le_of_dvd (by omega) hdvdu
      have htv1le : tv1 ≤ tv := Nat.le_of_dvd (by omega) hdvdv
      by_cases hcmp : tv1 ≤ tu1
      · rw [if_pos hcmp]
        have hinv2 : (u1a - v1a) * ta + (u2a - v2a) * nb
            = ((tu1 - tv1 : Nat) : Int) := by
          push_cast [Nat.cast_sub hcmp]
          linarith [hiu, hiv]
        exact ih (tu1 - tv1) tv1 (u1a - v1a) (u2a - v2a) v1a v2a
          (by omega) h1v (coprime_sub_of_coprime hcop1 hcmp) hinv2 hiv
      · rw [if_neg hcmp]
        have hlt : tu1 < tv1 := by omega
        have hinv2 : (v1a - u1a) * ta + (v2a - u2a) * nb
            = ((tv1 - tu1 : Nat) : Int) := by
          push_cast [Nat.cast_sub (le_of_lt hlt)]
          linarith [hiu, hiv]
        have hcop2 : Nat.Coprime tu1 (tv1 - tu1) :=
          Nat.Coprime.symm
            (coprime_sub_of_coprime (Nat.Coprime.symm hcop1) (by omega))
        exact ih tu1 (tv1 - tu1) u1a u2a (v1a - u1a) (v2a - u2a)
          (by omega) (by omega) hcop2 hiu hinv2

theorem inv_gcd_transfer {a n : Int} (hn : 1 < n)
    (hg : Nat.gcd a.natAbs n.natAbs = 1) :
    Nat.gcd (a % n).toNat n.toNat = 1 := by
  have hta0 : 0 ≤ a % n := Int.emod_nonneg a (by omega)
  have hd1 : ((Nat.gcd (a % n).toNat n.toNat : Nat) : Int) ∣ a % n := by
    have := Nat.gcd_dvd_left (a % n).toNat n.toNat
    have h2 := Int.natCast_dvd_natCast.mpr this
    rwa [Int.toNat_of_nonneg hta0] at h2
  have hd2 : ((Nat.gcd (a % n).toNat n.toNat : Nat) : Int) ∣ n := by
    have := Nat.gcd_dvd_right (a % n).toNat n.toNat
    have h2 := Int.natCast_dvd_natCast.mpr this
    rwa [Int.toNat_of_nonneg (by omega : (0:Int) ≤ n)] at h2
  have hda : ((Nat.gcd (a % n).toNat n.toNat : Nat) : Int) ∣ a := by
    have hsum : n * (a / n) + a % n = a := Int.ediv_add_emod a n
    calc ((Nat.gcd (a % n).toNat n.toNat : Nat) : Int)
        ∣ n * (a / n) + a % n := dvd_add (Dvd.dvd.mul_right hd2 _) hd1
      _ = a := hsum
  have hfin : Nat.gcd (a % n).toNat n.toNat ∣ 1 := by
    rw [← hg]
    exact Nat.dvd_gcd (Int.ofNat_dvd_left.mp hda) (Int.ofNat_dvd_left.mp hd2)
  exact Nat.dvd_one.mp hfin

/-- C3: `inv_mod(X, A, N)` fails with `BAD_INPUT` when `N ≤ 1`, fails with
`NOT_ACCEPTABLE` when `gcd(A, N) ≠ 1`, and otherwise succeeds with a result
`x` in `[0, N)` such that `(A*x) mod N = 1`; concretely
`inv_mod(3, 11) = 4`. -/
theorem mpi_inv_mod_claim (a n : Int) :
    (n ≤ 1 → mpi_inv_mod a n = .error .BAD_INPUT) ∧
    (1 < n → Nat.gcd a.natAbs n.natAbs ≠ 1 →
      mpi_inv_mod a n = .error .NOT_ACCEPTABLE) ∧
    (1 < n → Nat.gcd a.natAbs n.natAbs = 1 → ∃ x, mpi_inv_mod a n = .ok x ∧
      0 ≤ x ∧ x < n ∧ (a * x) % n = 1) ∧
    mpi_inv_mod 3 11 = .ok 4 := by
  refine ⟨?_, ?_, ?_, rfl⟩
  · intro h
    unfold mpi_inv_mod
    rw [if_pos h]
  · intro hn hne
    unfold mpi_inv_mod
    rw [if_neg (by omega), if_pos hne]
  · intro hn hg
    have hta0 : 0 ≤ a % n := Int.emod_nonneg a (by omega)
    have htan : a % n < n := Int.emod_lt_of_pos a (by omega)
    have hg2 : Nat.gcd (a % n).toNat n.toNat = 1 := inv_gcd_transfer hn hg
    have hta1 : (a % n).toNat ≠ 0 := by
      intro h0
      rw [h0, Nat.gcd_zero_left] at hg2
      omega
    have hpar : (a % n) % 2 = 1 ∨ n % 2 = 1 := by
      by_contra hc
      push_neg at hc
      have d1 : 2 ∣ (a % n).toNat := by omega
      have d2 : 2 ∣ n.toNat := by omega
      have hh := Nat.dvd_gcd d1 d2
      rw [hg2] at hh
      omega
    have hu0 : (1 : Int) * (a % n) + 0 * n = (((a % n).toNat : Nat) : Int) := by
      rw [Int.toNat_of_nonneg hta0]; ring
    have hv0 : (0 : Int) * (a % n) + 1 * n = ((n.toNat : Nat) : Int) := by
      rw [Int.toNat_of_nonneg (by omega : (0:Int) ≤ n)]; ring
    obtain ⟨u1', u2', v1', v2', heq, hbez⟩ :=
      invLoop_spec hpar ((a % n).toNat + n.toNat + 1) (a % n).toNat n.toNat
        1 0 0 1 (by omega) (by omega) hg2 hu0 hv0
    refine ⟨v1' % n, ?_, Int.emod_nonneg _ (by omega),
      Int.emod_lt_of_pos _ (by omega), ?_⟩
    · unfold mpi_inv_mod
      rw [if_neg (by omega), if_neg (by simp [hg]), heq]
    · have ha : a ≡ a % n [ZMOD n] := (Int.emod_emod_of_dvd a dvd_rfl).symm
      have hx : v1' % n ≡ v1' [ZMOD n] := Int.emod_emod_of_dvd v1' dvd_rfl
      have h1 : a * (v1' % n) ≡ (a % n) * v1' [ZMOD n] := Int.ModEq.mul ha hx
      have h2 : (a % n) * v1' ≡ 1 [ZMOD n] := by
        rw [Int.modEq_iff_dvd]
        exact ⟨v2', by linarith [hbez]⟩
      calc (a * (v1' % n)) % n = 1 % n := h1.trans h2
        _ = 1 := Int.emod_eq_of_lt (by omega) (by omega)

/-- Witness for C3 at `A = 3`, `N = 11`. -/
theorem mpi_inv_mod_claim_witness :
    ∃ x, mpi_inv_mod 3 11 = .ok x ∧ 0 ≤ x ∧ x < 11 ∧ (3 * x) % 11 = 1 :=
  (mpi_inv_mod_claim 3 11).2.2.1 (by decide) (by decide)
